import Mathlib

/-!
# sharedsv.c: recursive locks and thread counts of shared SVs

A shallow embedding of `sharedsv.c` (perl5, Arthur Bergman's shared SV backend)
and theorems about its lock state machine and its thread-count operations.

Conventions of the embedding

* Pointers are natural numbers, `0` is `NULL`.  `shared_sv` structs and `SV`s live in
  two heaps, partial maps from addresses.  Dereferencing `NULL` or an address that
  holds no object is `Res.fault`.
* `my_perl` (the `pTHX` argument) is the running interpreter, never `NULL`; the field
  `owner` is `NULL` or an interpreter, so it is an `Option Interp`, and
  `ssv->owner && ssv->owner == my_perl` reads `owner = some my_perl`.
* A `perl_mutex` is `none` when free and `some t` while the thread of interpreter `t`
  holds it.  `MUTEX_LOCK` on a held mutex does not return: `Res.block`.
* `locks` is a signed integer that the code increments and decrements, the reference
  count of an `SV` a counter that never goes below 0; neither the source file nor the
  spec gives them a width and both are taken unbounded (`Int`, `Nat`).
* The headers `sharedsv.h`, `sv.h`, `av.h`, `hv.h`, `thread.h`, `scope.h` and `handy.h`
  are not among the sources.  The types and macros they declare are modelled from the
  spec, each under a comment that says so.  `SvIV(sv)` is the macro
  `(SvIOK(sv) ? SvIVX(sv) : sv_2iv(sv))`: it evaluates its argument twice, which shows
  where the argument has a side effect, as in `SvIV(*src_ary++)`.
* The event log of a `World` is ghost state: no code reads it.  It records the calls of
  `Perl_sharedsv_thrcnt_dec` so that "once", "in order" and "only after" can be stated.
* `Perl_sharedsv_thrcnt_dec` is recursive over the heap and need not terminate; the
  embedding takes a fuel argument and answers `Res.timeout` when it runs out.
-/

namespace SharedSV

/-- Addresses; `0` is the null pointer. -/
abbrev Addr := Nat

/-- Identity of an interpreter (`PerlInterpreter *`, never null). -/
abbrev Interp := Nat

/-- Outcome of running a piece of the C code from a given state. -/
inductive Res (α : Type) where
  /-- The code returns. -/
  | ret (a : α) : Res α
  /-- The code waits in `MUTEX_LOCK` for a mutex that is held. -/
  | block : Res α
  /-- The code does something C leaves undefined: a null or dangling pointer is
  dereferenced, or a mutex is released by a thread that does not hold it. -/
  | fault : Res α
  /-- The recursion went deeper than the fuel given to the embedding. -/
  | timeout : Res α
  deriving DecidableEq, Repr

/-- Sequencing of outcomes: the continuation runs only when the first part returns. -/
def Res.bind {α β : Type} (r : Res α) (f : α → Res β) : Res β :=
  match r with
  | .ret a => f a
  | .block => .block
  | .fault => .fault
  | .timeout => .timeout

/-- Modelled from the spec: the `svtype` enumeration is declared in `sv.h`, which is not
among the sources.  The spec's payload kinds are Reference (`SVt_RV`), Sequence
(`SVt_PVAV`), Mapping (`SVt_PVHV`) and Scalar (the other types); `SVt_NULL`, the type of
an empty, untyped SV, is the value 0, the only one `if (SvTYPE(sv))` takes for false. -/
inductive svtype where
  | SVt_NULL | SVt_IV | SVt_NV | SVt_RV | SVt_PV | SVt_PVIV | SVt_PVNV | SVt_PVMG
  | SVt_PVBM | SVt_PVLV | SVt_PVAV | SVt_PVHV | SVt_PVCV | SVt_PVGV | SVt_PVFM | SVt_PVIO
  deriving DecidableEq, Repr

/-- Modelled from the spec: the value representation (`sv.h`, `av.h`, `hv.h`) is not
among the sources; an `SV` is modelled as far as `sharedsv.c` looks at it, through the
accessors it uses.  Field `refcnt` is `SvREFCNT` (the spec's reference count of the
payload), `svt` is `SvTYPE`, `rok` is `SvROK`, `iok` is `SvIOK` (the flag that says the
integer slot is valid), `iv` is the integer of the SV read as an address (the code casts
it to `shared_sv *`: the integer of a slot is the Backend it points at), `rv` is
`SvRV`, `ary` is `AvARRAY[0 .. AvFILLp]` (the spec's ordered list of slots), `hents` are
the entries of a hash in the order `hv_iternext` yields them, each a key and the `SV *`
that `hv_iterval` returns. -/
structure SV where
  refcnt : Nat
  svt : svtype
  rok : Bool
  iok : Bool
  iv : Addr
  rv : Addr
  ary : List Addr
  hents : List (String × Addr)
  deriving DecidableEq, Repr

/-- Modelled from the spec: the struct `shared_sv` is declared in `sharedsv.h`, which is
not among the sources; these are the spec's fields of a Shared Backend, under the names
the code uses: payload `sv`, `mutex` (`none` when free, else the holder), `cond` (the
waiters of the condition variable; nothing here waits on it), the lock count `locks` (the
code increments and decrements it, so a signed integer) and `owner`. -/
structure shared_sv where
  sv : Addr
  mutex : Option Interp
  cond : List Interp
  locks : Int
  owner : Option Interp
  deriving DecidableEq, Repr

/-- Ghost events recorded while `Perl_sharedsv_thrcnt_dec` runs. -/
inductive Event where
  /-- `Perl_sharedsv_thrcnt_dec` was entered on this `shared_sv`. -/
  | enter (ssv : Addr) : Event
  /-- `SvREFCNT_dec` was executed on this `SV`. -/
  | refdec (sv : Addr) : Event
  /-- The call of `Perl_sharedsv_thrcnt_dec` on this `shared_sv` returned. -/
  | leave (ssv : Addr) : Event
  deriving DecidableEq, Repr

/-- The state the code runs in: the heap of `shared_sv` structs, the heap of `SV`s, the
save stack entries pushed by `SAVEDESTRUCTOR_X(Perl_sharedsv_unlock_scope, ssv)` (newest
first, each with the interpreter whose save stack holds it), and the ghost event log
(oldest first). -/
structure World where
  ssvs : Addr → Option shared_sv
  svs : Addr → Option SV
  savestack : List (Interp × Addr)
  log : List Event

/-- Read `*ssv`. -/
def World.getSsv (w : World) (ssv : Addr) : Res shared_sv :=
  if ssv = 0 then .fault
  else match w.ssvs ssv with
    | some b => .ret b
    | none => .fault

/-- Write `*ssv`. -/
def World.setSsv (w : World) (ssv : Addr) (b : shared_sv) : World :=
  { w with ssvs := fun a => if a = ssv then some b else w.ssvs a }

/-- Read `*sv`. -/
def World.getSv (w : World) (sv : Addr) : Res SV :=
  if sv = 0 then .fault
  else match w.svs sv with
    | some s => .ret s
    | none => .fault

/-- Write `*sv`. -/
def World.setSv (w : World) (sv : Addr) (s : SV) : World :=
  { w with svs := fun a => if a = sv then some s else w.svs a }

/-- Append a ghost event. -/
def World.emit (w : World) (e : Event) : World :=
  { w with log := w.log ++ [e] }

/-- Modelled from the spec: `MUTEX_LOCK` is a macro of `thread.h`, which is not among the
sources.  The spec has `lock` "block on mutex until acquired": run by the thread of
`my_perl`, it returns holding the mutex when the mutex is free and waits otherwise. -/
def MUTEX_LOCK (m : Option Interp) (my_perl : Interp) : Res (Option Interp) :=
  match m with
  | none => .ret (some my_perl)
  | some _ => .block

/-- Modelled from the spec: `MUTEX_UNLOCK` is a macro of `thread.h`, which is not among
the sources.  The spec has `unlock` "release mutex": run by the thread of `my_perl`, it
frees the mutex that thread holds; what it does to a mutex the thread does not hold is
not defined. -/
def MUTEX_UNLOCK (m : Option Interp) (my_perl : Interp) : Res (Option Interp) :=
  if m = some my_perl then .ret none else .fault

/-- Modelled from the spec: `SAVEDESTRUCTOR_X` is a macro of `scope.h`, which is not among
the sources.  The spec has `lock` "register a scope-bound release obligation tied to the
calling context's current dynamic scope":
`SAVEDESTRUCTOR_X(Perl_sharedsv_unlock_scope, ssv)` pushes the release of `ssv` on the save
stack of `my_perl`. -/
def SAVEDESTRUCTOR_X (my_perl : Interp) (ssv : Addr) (w : World) : World :=
  { w with savestack := (my_perl, ssv) :: w.savestack }

/-- Function `Perl_sharedsv_new`.  The allocation macro `New` (of `handy.h`, not among
the sources) is taken as a parameter: `raw` is the content of the block it hands back.
`MUTEX_INIT` and `COND_INIT` leave the mutex free and the condition variable without
waiters (the spec's "unlocked/unsignaled state"), then `ssv->locks = 0`.  The function
writes no other field. -/
def Perl_sharedsv_new (raw : shared_sv) : shared_sv :=
  let ssv := raw
  let ssv := { ssv with mutex := none }
  let ssv := { ssv with cond := [] }
  let ssv := { ssv with locks := 0 }
  ssv

/-- Function `Perl_sharedsv_find`: `ssv` is set to `NULL` and returned, the argument is
not looked at. -/
def Perl_sharedsv_find (_sv : Addr) : Addr :=
  let ssv : Addr := 0
  ssv

/-- Function `Perl_sharedsv_lock`: nothing on a null `ssv`; `locks++` when `my_perl` is the
owner; otherwise `MUTEX_LOCK`, `locks++`, `owner = my_perl`, and the scope release is
registered when `locks` is then 1. -/
def Perl_sharedsv_lock (my_perl : Interp) (ssv : Addr) (w : World) : Res World :=
  if ssv = 0 then .ret w
  else
    (w.getSsv ssv).bind fun b =>
    if b.owner = some my_perl then
      .ret (w.setSsv ssv { b with locks := b.locks + 1 })
    else
      (MUTEX_LOCK b.mutex my_perl).bind fun m =>
      let b1 := { b with mutex := m, locks := b.locks + 1, owner := some my_perl }
      let w1 := w.setSsv ssv b1
      if b1.locks = 1 then .ret (SAVEDESTRUCTOR_X my_perl ssv w1) else .ret w1

/-- Function `Perl_sharedsv_unlock`: nothing when `my_perl` is not the owner (the read of
`ssv->owner` is not guarded against a null `ssv`); otherwise `--locks`, and when that
gives 0 the owner is cleared and the mutex released. -/
def Perl_sharedsv_unlock (my_perl : Interp) (ssv : Addr) (w : World) : Res World :=
  (w.getSsv ssv).bind fun b =>
  if b.owner ≠ some my_perl then .ret w
  else
    let b1 := { b with locks := b.locks - 1 }
    if b1.locks = 0 then
      (MUTEX_UNLOCK b1.mutex my_perl).bind fun m =>
      .ret (w.setSsv ssv { b1 with owner := none, mutex := m })
    else .ret (w.setSsv ssv b1)

/-- Function `Perl_sharedsv_unlock_scope`: nothing when `my_perl` is not the owner;
otherwise `locks = 0`, the owner is cleared and the mutex released. -/
def Perl_sharedsv_unlock_scope (my_perl : Interp) (ssv : Addr) (w : World) : Res World :=
  (w.getSsv ssv).bind fun b =>
  if b.owner ≠ some my_perl then .ret w
  else
    (MUTEX_UNLOCK b.mutex my_perl).bind fun m =>
    .ret (w.setSsv ssv { b with locks := 0, owner := none, mutex := m })

/-- Modelled from the spec: the macros `SHAREDSvLOCK`, `SHAREDSvUNLOCK`, `SHAREDSvGET`,
`SHAREDSvEDIT` and `SHAREDSvRELEASE` come from `sharedsv.h`, which is not among the
sources.  The spec has `increment` and `decrement` "acquire lock", work on the payload
and "release lock": `SHAREDSvLOCK(a)` is `Perl_sharedsv_lock(aTHX_ a)`. -/
def SHAREDSvLOCK (my_perl : Interp) (a : Addr) (w : World) : Res World :=
  Perl_sharedsv_lock my_perl a w

/-- Modelled from the spec: `SHAREDSvUNLOCK(a)` (from the absent `sharedsv.h`) is the
"release lock" of the spec, `Perl_sharedsv_unlock(aTHX_ a)`. -/
def SHAREDSvUNLOCK (my_perl : Interp) (a : Addr) (w : World) : Res World :=
  Perl_sharedsv_unlock my_perl a w

/-- Modelled from the spec: `SHAREDSvGET(a)` (from the absent `sharedsv.h`) reads the
payload of the Backend, `a->sv`. -/
def SHAREDSvGET (a : Addr) (w : World) : Res Addr :=
  (w.getSsv a).bind fun b => .ret b.sv

/-- Modelled from the spec: `SHAREDSvEDIT(a)` (from the absent `sharedsv.h`) opens the
section in which the payload is edited.  The spec has every change of the payload's count
made while the Backend's own lock is held: the macro takes the lock of `a` for the caller
once more (a re-entrant `SHAREDSvLOCK`) and makes the shared interpreter the current
context, which touches no Backend and no SV. -/
def SHAREDSvEDIT (my_perl : Interp) (a : Addr) (w : World) : Res World :=
  SHAREDSvLOCK my_perl a w

/-- Modelled from the spec: `SHAREDSvRELEASE(a)` (from the absent `sharedsv.h`) closes the
section opened by `SHAREDSvEDIT`: it restores the caller's context and gives back the lock
taken there (`SHAREDSvUNLOCK`). -/
def SHAREDSvRELEASE (my_perl : Interp) (a : Addr) (w : World) : Res World :=
  SHAREDSvUNLOCK my_perl a w

/-- Modelled from the spec: `SvREFCNT_inc` is a macro of `sv.h`, which is not among the
sources.  The spec has `increment` "increment the payload's reference count": a null `sv`
is left alone, otherwise the count goes up by one. -/
def SvREFCNT_inc (sv : Addr) (w : World) : Res World :=
  if sv = 0 then .ret w
  else (w.getSv sv).bind fun s => .ret (w.setSv sv { s with refcnt := s.refcnt + 1 })

/-- Modelled from the spec: `SvREFCNT_dec` is a macro of `sv.h`, which is not among the
sources.  The spec has `decrement` "decrement the payload's own reference count" and free
the payload when it reaches 0: a null `sv` and an `sv` whose count is already 0 are left
alone, otherwise the count goes down by one.  Freeing is the interpreter's business: the
`SV` whose count reached 0 stays in the heap, with count 0. -/
def SvREFCNT_dec (sv : Addr) (w : World) : Res World :=
  if sv = 0 then .ret w
  else (w.getSv sv).bind fun s =>
    if s.refcnt = 0 then .ret w
    else .ret (w.setSv sv { s with refcnt := s.refcnt - 1 })

/-- Function `Perl_sharedsv_thrcnt_inc`: `SHAREDSvLOCK(ssv)`, `SvREFCNT_inc(ssv->sv)`,
`SHAREDSvUNLOCK(ssv)`. -/
def Perl_sharedsv_thrcnt_inc (my_perl : Interp) (ssv : Addr) (w : World) : Res World :=
  (SHAREDSvLOCK my_perl ssv w).bind fun w =>
  (w.getSsv ssv).bind fun b =>
  (SvREFCNT_inc b.sv w).bind fun w =>
  SHAREDSvUNLOCK my_perl ssv w

/-- Modelled from the spec: `SvIOK` is a macro of `sv.h`, which is not among the
sources: `(SvFLAGS(sv) & SVf_IOK)`, the flag that says the SV holds a valid integer. -/
def SvIOK (s : SV) : Bool :=
  s.iok

/-- Modelled from the spec: `SvIVX` is a macro of `sv.h`, which is not among the
sources: `((XPVIV*) SvANY(sv))->xiv_iv`, the integer slot of the body of the SV.  An
untyped SV (`SVt_NULL`) has no body, `SvANY` is null there and the read is a fault. -/
def SvIVX (s : SV) : Res Addr :=
  if s.svt = svtype.SVt_NULL then .fault else .ret s.iv

/-- Modelled from the spec: `sv_2iv` is a function of `sv.c`, which is not among the
sources: it coerces the SV to an integer.  The integer an SV coerces to is its field
`iv` (0 for an SV without a value). -/
def sv_2iv (s : SV) : Res Addr :=
  .ret s.iv

/-- Modelled from the spec: `SvIV` is a macro of `sv.h`, which is not among the sources:
`#define SvIV(sv) (SvIOK(sv) ? SvIVX(sv) : sv_2iv(sv))`.  It evaluates its argument
twice, first for the test of the flag and then for the read (`SvIVx` is the variant that
evaluates it once), so it is modelled with two arguments: `tested` is the SV the first
evaluation of the argument yields, `read` the one the second evaluation yields.  They
are the same SV when the argument has no side effect. -/
def SvIV (tested read : SV) : Res Addr :=
  if SvIOK tested then SvIVX read else sv_2iv read

/-- The `SVt_PVAV` loop of `Perl_sharedsv_thrcnt_dec`,
`while (items-- > 0) { if (SvTYPE(*src_ary)) dec((shared_sv *)SvIV(*src_ary++)); }`,
started with `src_ary = AvARRAY(sv)` and `items = AvFILLp(sv) + 1`.  The list is the part
of the array from `src_ary` on.  At an untyped slot `src_ary` stays where it is.  At a
typed slot the argument `*src_ary++` of `SvIV` is evaluated twice: the flag is tested on
the slot under `src_ary`, the integer is read from the slot after it, and `src_ary` has
advanced by two when the call is made.  Reading past `AvFILLp` is a fault.  `dec` is the
recursive call. -/
def av_loop (dec : Addr → World → Res World) :
    List Addr → Nat → World → Res World
  | _, 0, w => .ret w
  | [], _ + 1, _ => .fault
  | p :: rest, items + 1, w =>
    (w.getSv p).bind fun s =>
    if s.svt ≠ svtype.SVt_NULL then
      match rest with
      | [] => .fault
      | q :: rest2 =>
        (w.getSv q).bind fun t =>
        (SvIV s t).bind fun a =>
        (dec a w).bind fun w => av_loop dec rest2 items w
    else av_loop dec (p :: rest) items w

/-- The `SVt_PVHV` loop of `Perl_sharedsv_thrcnt_dec`,
`while ((entry = hv_iternext(hv))) dec((shared_sv *)SvIV(hv_iterval(hv, entry)));`
over the entries not yet visited.  Both evaluations of `hv_iterval(hv, entry)` yield the
value of the entry. -/
def hv_loop (dec : Addr → World → Res World) :
    List (String × Addr) → World → Res World
  | [], w => .ret w
  | entry :: rest, w =>
    (w.getSv entry.2).bind fun v =>
    (SvIV v v).bind fun a =>
    (dec a w).bind fun w => hv_loop dec rest w

/-- The block `if (SvREFCNT(sv) == 1) { switch (SvTYPE(sv)) { ... } }` of
`Perl_sharedsv_thrcnt_dec`: when the count of the payload `s` is 1, the Backends behind a
reference, an array or a hash are decremented first.  `dec` is the recursive call.  Both
evaluations of `SvRV(sv)` in `SvIV(SvRV(sv))` yield the referent. -/
def teardown (dec : Addr → World → Res World) (s : SV) (w : World) : Res World :=
  if s.refcnt = 1 then
    match s.svt with
    | .SVt_RV =>
      if s.rok then (w.getSv s.rv).bind fun t => (SvIV t t).bind fun a => dec a w
      else .ret w
    | .SVt_PVAV => av_loop dec s.ary s.ary.length w
    | .SVt_PVHV => hv_loop dec s.hents w
    | _ => .ret w
  else .ret w

/-- Function `Perl_sharedsv_thrcnt_dec`, with the fuel that bounds the depth of the
recursion: `SHAREDSvLOCK`, `SHAREDSvEDIT`, `sv = SHAREDSvGET(ssv)`, the teardown block,
`SvREFCNT_dec(sv)`, `SHAREDSvRELEASE`, `SHAREDSvUNLOCK`.  The ghost log records the entry,
the `SvREFCNT_dec` and the return of every call. -/
def Perl_sharedsv_thrcnt_dec (my_perl : Interp) : Nat → Addr → World → Res World
  | 0, _, _ => .timeout
  | fuel + 1, ssv, w =>
    (SHAREDSvLOCK my_perl ssv (w.emit (.enter ssv))).bind fun w =>
    (SHAREDSvEDIT my_perl ssv w).bind fun w =>
    (SHAREDSvGET ssv w).bind fun sv =>
    (w.getSv sv).bind fun s =>
    (teardown (fun a w => Perl_sharedsv_thrcnt_dec my_perl fuel a w) s w).bind fun w =>
    (SvREFCNT_dec sv (w.emit (.refdec sv))).bind fun w =>
    (SHAREDSvRELEASE my_perl ssv w).bind fun w =>
    (SHAREDSvUNLOCK my_perl ssv w).bind fun w =>
    .ret (w.emit (.leave ssv))

/-- Run an operation `n` times in a row, as long as it returns. -/
def times (n : Nat) (op : World → Res World) (w : World) : Res World :=
  match n with
  | 0 => .ret w
  | n + 1 => (op w).bind (times n op)

/-- The Backend is unlocked: depth 0, no owner, mutex free. -/
@[reducible] def Unlocked (b : shared_sv) : Prop :=
  b.locks = 0 ∧ b.owner = none ∧ b.mutex = none

/-- The Backend is held by `o` at depth `d`: `o` owns it and holds its mutex. -/
@[reducible] def HeldBy (b : shared_sv) (o : Interp) (d : Int) : Prop :=
  b.locks = d ∧ b.owner = some o ∧ b.mutex = some o

/-- One call of the lock manager that returns: some caller `o` runs `lock`, `unlock` or
`unlock_scope` on some `shared_sv` pointer `a`.  A `lock` that has to wait for the mutex
does not return and is no step. -/
inductive LockStep : World → World → Prop where
  | lock (o : Interp) (a : Addr) {w w1 : World} :
      Perl_sharedsv_lock o a w = .ret w1 → LockStep w w1
  | unlock (o : Interp) (a : Addr) {w w1 : World} :
      Perl_sharedsv_unlock o a w = .ret w1 → LockStep w w1
  | unlock_scope (o : Interp) (a : Addr) {w w1 : World} :
      Perl_sharedsv_unlock_scope o a w = .ret w1 → LockStep w w1

/-- The states reached from `w0` by finitely many steps of the lock manager. -/
inductive LockReach (w0 : World) : World → Prop where
  | start : LockReach w0 w0
  | step {w w1 : World} : LockReach w0 w → LockStep w w1 → LockReach w0 w1

/-- The lock fields of a Backend agree: either it is unlocked, or it has an owner who
holds the mutex at a positive depth. -/
@[reducible] def LockInv (b : shared_sv) : Prop :=
  Unlocked b ∨ ∃ o, 0 < b.locks ∧ b.owner = some o ∧ b.mutex = some o

/-- The caller `o` can take the lock of the Backend without waiting: the Backend is
unlocked, or `o` already holds it at some depth `d ≥ 1`. -/
@[reducible] def Avail (b : shared_sv) (o : Interp) : Prop :=
  Unlocked b ∨ (1 ≤ b.locks ∧ HeldBy b o b.locks)

/-- The Backend as it is between `SHAREDSvEDIT` and `SHAREDSvRELEASE` of a call by `o`:
owned by `o`, mutex held by `o`, two levels deeper. -/
def inEdit (b : shared_sv) (o : Interp) : shared_sv :=
  { b with mutex := some o, locks := b.locks + 2, owner := some o }

/-- The save stack after `o` took the lock of the Backend `b` at `a`: the scope release is
pushed when the lock went from depth 0 to 1. -/
def pushedIfFirst (b : shared_sv) (o : Interp) (a : Addr) (st : List (Interp × Addr)) :
    List (Interp × Addr) :=
  if b.locks = 0 then (o, a) :: st else st

/-- The world after a call of `Perl_sharedsv_thrcnt_dec` by `o` on the Backend `b` at `a`
has logged its entry and passed `SHAREDSvLOCK` and `SHAREDSvEDIT`. -/
def entered (w : World) (o : Interp) (a : Addr) (b : shared_sv) : World :=
  { ssvs := (w.setSsv a (inEdit b o)).ssvs, svs := w.svs,
    savestack := pushedIfFirst b o a w.savestack, log := w.log ++ [Event.enter a] }

/-- A call of `Perl_sharedsv_thrcnt_dec` goes no deeper on this payload: its count is not 1, or it
is neither a reference nor an array nor a hash. -/
@[reducible] def NoTeardown (s : SV) : Prop :=
  s.refcnt ≠ 1 ∨
    (s.svt ≠ svtype.SVt_RV ∧ s.svt ≠ svtype.SVt_PVAV ∧ s.svt ≠ svtype.SVt_PVHV)

/-- The value of `SvIV(*p)`: the address a slot SV stands for (0 when there is no SV at `p`). -/
def slotTarget (w : World) (p : Addr) : Addr :=
  match w.svs p with
  | some v => v.iv
  | none => 0

/-- A plain `SV` with the given count and type, nothing else set. -/
def plainSV (n : Nat) (t : svtype) : SV :=
  { refcnt := n, svt := t, rok := false, iok := false, iv := 0, rv := 0, ary := [],
    hents := [] }

/-- An array `SV` with the given count and slots. -/
def arraySV (n : Nat) (slots : List Addr) : SV :=
  { refcnt := n, svt := svtype.SVt_PVAV, rok := false, iok := false, iv := 0, rv := 0,
    ary := slots, hents := [] }

/-- A hash `SV` with the given count and entries. -/
def hashSV (n : Nat) (ents : List (String × Addr)) : SV :=
  { refcnt := n, svt := svtype.SVt_PVHV, rok := false, iok := false, iv := 0, rv := 0,
    ary := [], hents := ents }

/-- An unlocked `shared_sv` whose payload is `sv`. -/
def freeSsv (sv : Addr) : shared_sv :=
  { sv := sv, mutex := none, cond := [], locks := 0, owner := none }

/-- A `shared_sv` with payload `sv` that interpreter `o` holds at depth `d`. -/
def heldSsv (sv : Addr) (o : Interp) (d : Int) : shared_sv :=
  { sv := sv, mutex := some o, cond := [], locks := d, owner := some o }

/-- A heap for running the lock manager: the Backend at 1 is unlocked, the Backend at 2
is held by interpreter 7 at depth 3; their payloads are the strings at 10 and 20, with
counts 1 and 2. -/
def lockWorld : World :=
  { ssvs := fun a => match a with
      | 1 => some (freeSsv 10)
      | 2 => some (heldSsv 20 7 3)
      | _ => none
    svs := fun a => match a with
      | 10 => some (plainSV 1 svtype.SVt_PV)
      | 20 => some (plainSV 2 svtype.SVt_PV)
      | _ => none
    savestack := [(7, 2)]
    log := [] }

/-- A slot `SV` of a shared array or hash: an integer `SV` (`SvIOK`) whose value is the
address of the `shared_sv` it stands for. -/
def slotSV (ssv : Addr) : SV :=
  { refcnt := 1, svt := svtype.SVt_IV, rok := false, iok := true, iv := ssv, rv := 0,
    ary := [], hents := [] }

/-- A heap with a shared array: the Backend at 1 has the array at 10 as payload, count 1,
with three slots: slot 0 (the SV at 11) holds the Backend at 2, slot 1 (the SV at 12) is
an untyped, empty SV, slot 2 (the SV at 13) holds the Backend at 3.  The Backends at 2 and
3 have the strings at 20 and 30 as payloads, count 1 each.  All three are unlocked. -/
def seqWorld : World :=
  { ssvs := fun a => match a with
      | 1 => some (freeSsv 10)
      | 2 => some (freeSsv 20)
      | 3 => some (freeSsv 30)
      | _ => none
    svs := fun a => match a with
      | 10 => some (arraySV 1 [11, 12, 13])
      | 11 => some (slotSV 2)
      | 12 => some (plainSV 1 svtype.SVt_NULL)
      | 13 => some (slotSV 3)
      | 20 => some (plainSV 1 svtype.SVt_PV)
      | 30 => some (plainSV 1 svtype.SVt_PV)
      | _ => none
    savestack := []
    log := [] }

/-- A heap with a shared hash: the Backend at 1 has the hash at 10 as payload, count 1,
with the entries `ents`; the SV at 11 is a value that holds the Backend at 2, the SV at
12 is the plain scalar 5; the Backend at 2 has the string at 20 as payload, count 1.
The string at 50, count 1, is the payload of no Backend.  Both Backends are unlocked and
there is no Backend at address 5. -/
def mapWorld (ents : List (String × Addr)) : World :=
  { ssvs := fun a => match a with
      | 1 => some (freeSsv 10)
      | 2 => some (freeSsv 20)
      | _ => none
    svs := fun a => match a with
      | 10 => some (hashSV 1 ents)
      | 11 => some (slotSV 2)
      | 12 => some { plainSV 1 svtype.SVt_IV with iok := true, iv := 5 }
      | 20 => some (plainSV 1 svtype.SVt_PV)
      | 50 => some (plainSV 1 svtype.SVt_PV)
      | _ => none
    savestack := []
    log := [] }

/-- A heap with a shared array of two: the Backend at 1 has the array at 10 as payload,
count 1, whose two slots (the SVs at 11 and 12) hold the Backends at 2 and 3.  The
payload of Backend 2 is `px`, at 20; the SV at 21 holds the Backend at 3; the payload of
Backend 3 is the string at 30 with count 2.  All three Backends are unlocked. -/
def pairWorld (px : SV) : World :=
  { ssvs := fun a => match a with
      | 1 => some (freeSsv 10)
      | 2 => some (freeSsv 20)
      | 3 => some (freeSsv 30)
      | _ => none
    svs := fun a => match a with
      | 10 => some (arraySV 1 [11, 12])
      | 11 => some (slotSV 2)
      | 12 => some (slotSV 3)
      | 20 => some px
      | 21 => some (slotSV 3)
      | 30 => some (plainSV 2 svtype.SVt_PV)
      | _ => none
    savestack := []
    log := [] }

/-- The `SV` with its count blanked: what no operation of this file changes. -/
def SV.shape (s : SV) : SV :=
  { s with refcnt := 0 }

/-- The worlds `w` and `w1` hold the same Backends, each with the same payload pointer
and condition variable, and the same SVs up to their counts: they differ at most in lock
fields, counts, save stack and log. -/
def SameShape (w w1 : World) : Prop :=
  (∀ a, (w1.ssvs a).map (fun b => (b.sv, b.cond)) =
    (w.ssvs a).map (fun b => (b.sv, b.cond))) ∧
  (∀ p, (w1.svs p).map SV.shape = (w.svs p).map SV.shape)

/-- The Backends a teardown of the payload `s` may call `Perl_sharedsv_thrcnt_dec` on:
the integer of the referent of a reference, of a slot of an array (the array loop calls
on the integers of some of the slots, never on anything else), of a value of a hash. -/
def targets (w : World) (s : SV) : List Addr :=
  match s.svt with
  | .SVt_RV => if s.rok then [slotTarget w s.rv] else []
  | .SVt_PVAV => s.ary.map (slotTarget w)
  | .SVt_PVHV => s.hents.map fun e => slotTarget w e.2
  | _ => []

/-- Payload containment: the payload of the Backend at `a` points at the Backend `x`. -/
def Contains (w : World) (a x : Addr) : Prop :=
  ∃ b s, w.ssvs a = some b ∧ w.svs b.sv = some s ∧ x ∈ targets w s

/-- Payload containment is acyclic: `rank` goes down along it. -/
def Ranked (w : World) (rank : Addr → Nat) : Prop :=
  ∀ a x, Contains w a x → rank x < rank a

/-- A traced run: the worlds the code passes through, oldest first (the world after each
step that returned), and the outcome. -/
structure Traced where
  seen : List World
  out : Res World

/-- The traced run of one step. -/
def Traced.atom (r : Res World) : Traced :=
  match r with
  | .ret w => ⟨[w], .ret w⟩
  | .block => ⟨[], .block⟩
  | .fault => ⟨[], .fault⟩
  | .timeout => ⟨[], .timeout⟩

/-- Sequencing of traced runs: the second part runs from the world the first returned. -/
def Traced.andThen (t : Traced) (f : World → Traced) : Traced :=
  match t.out with
  | .ret w => ⟨t.seen ++ (f w).seen, (f w).out⟩
  | .block => ⟨t.seen, .block⟩
  | .fault => ⟨t.seen, .fault⟩
  | .timeout => ⟨t.seen, .timeout⟩

/-- A read that changes nothing, followed by a traced run. -/
def Traced.lift {α : Type} (r : Res α) (f : α → Traced) : Traced :=
  match r with
  | .ret a => f a
  | .block => ⟨[], .block⟩
  | .fault => ⟨[], .fault⟩
  | .timeout => ⟨[], .timeout⟩

/-- Function `Perl_sharedsv_thrcnt_inc`, traced: the same three steps, with the world
after each of them recorded. -/
def incT (my_perl : Interp) (ssv : Addr) (w : World) : Traced :=
  (Traced.atom (SHAREDSvLOCK my_perl ssv w)).andThen fun w =>
  Traced.lift (w.getSsv ssv) fun b =>
  (Traced.atom (SvREFCNT_inc b.sv w)).andThen fun w =>
  Traced.atom (SHAREDSvUNLOCK my_perl ssv w)

/-- The `SVt_PVAV` loop (`av_loop`), traced. -/
def av_loopT (dec : Addr → World → Traced) : List Addr → Nat → World → Traced
  | _, 0, w => ⟨[], .ret w⟩
  | [], _ + 1, _ => ⟨[], .fault⟩
  | p :: rest, items + 1, w =>
    Traced.lift (w.getSv p) fun s =>
    if s.svt ≠ svtype.SVt_NULL then
      match rest with
      | [] => ⟨[], .fault⟩
      | q :: rest2 =>
        Traced.lift (w.getSv q) fun t =>
        Traced.lift (SvIV s t) fun a =>
        (dec a w).andThen fun w => av_loopT dec rest2 items w
    else av_loopT dec (p :: rest) items w

/-- The `SVt_PVHV` loop (`hv_loop`), traced. -/
def hv_loopT (dec : Addr → World → Traced) : List (String × Addr) → World → Traced
  | [], w => ⟨[], .ret w⟩
  | entry :: rest, w =>
    Traced.lift (w.getSv entry.2) fun v =>
    Traced.lift (SvIV v v) fun a =>
    (dec a w).andThen fun w => hv_loopT dec rest w

/-- The teardown block (`teardown`), traced. -/
def teardownT (dec : Addr → World → Traced) (s : SV) (w : World) : Traced :=
  if s.refcnt = 1 then
    match s.svt with
    | .SVt_RV =>
      if s.rok then Traced.lift (w.getSv s.rv) fun t => Traced.lift (SvIV t t) fun a => dec a w
      else ⟨[], .ret w⟩
    | .SVt_PVAV => av_loopT dec s.ary s.ary.length w
    | .SVt_PVHV => hv_loopT dec s.hents w
    | _ => ⟨[], .ret w⟩
  else ⟨[], .ret w⟩

/-- Function `Perl_sharedsv_thrcnt_dec`, traced: the same steps in the same order, with
the world after `SHAREDSvLOCK`, `SHAREDSvEDIT`, `SvREFCNT_dec`, `SHAREDSvRELEASE` and
`SHAREDSvUNLOCK` of every call, nested calls included, recorded. -/
def decT (my_perl : Interp) : Nat → Addr → World → Traced
  | 0, _, _ => ⟨[], .timeout⟩
  | fuel + 1, ssv, w =>
    (Traced.atom (SHAREDSvLOCK my_perl ssv (w.emit (.enter ssv)))).andThen fun w =>
    (Traced.atom (SHAREDSvEDIT my_perl ssv w)).andThen fun w =>
    Traced.lift (SHAREDSvGET ssv w) fun sv =>
    Traced.lift (w.getSv sv) fun s =>
    (teardownT (fun a w => decT my_perl fuel a w) s w).andThen fun w =>
    (Traced.atom (SvREFCNT_dec sv (w.emit (.refdec sv)))).andThen fun w =>
    (Traced.atom (SHAREDSvRELEASE my_perl ssv w)).andThen fun w =>
    (Traced.atom (SHAREDSvUNLOCK my_perl ssv w)).andThen fun w =>
    ⟨[], .ret (w.emit (.leave ssv))⟩

/-- The SV at `p` exists, is typed, and its integer is the address of a Backend. -/
def ValidTarget (w : World) (p : Addr) : Prop :=
  p ≠ 0 ∧ ∃ t, w.svs p = some t ∧ t.svt ≠ svtype.SVt_NULL ∧ t.iv ≠ 0 ∧ w.ssvs t.iv ≠ none

/-- The array loop started at the head of these slots stays inside the array: the slot
under `src_ary` exists, and when it is typed the slot after it exists, is typed and holds
the address of a Backend, and the same goes for the slots from the second next on.  The
walk so ends at an untyped slot. -/
def ValidWalk (w : World) : List Addr → Prop
  | [] => False
  | [p] => p ≠ 0 ∧ ∃ s, w.svs p = some s ∧ s.svt = svtype.SVt_NULL
  | p :: q :: rest =>
    p ≠ 0 ∧ ∃ s, w.svs p = some s ∧
      (s.svt ≠ svtype.SVt_NULL → ValidTarget w q ∧ ValidWalk w rest)

/-- Every pointer a teardown of the payload `s` follows leads to a Backend, and the walk
of an array stays inside the array. -/
def ValidPayload (w : World) (s : SV) : Prop :=
  match s.svt with
  | .SVt_RV => s.rok = true → ValidTarget w s.rv
  | .SVt_PVAV => s.ary = [] ∨ ValidWalk w s.ary
  | .SVt_PVHV => ∀ e ∈ s.hents, ValidTarget w e.2
  | _ => True

/-- The heap is closed for the caller `o`: every Backend can be locked by `o` without
waiting and has a payload, and the pointers of every payload lead to Backends. -/
def Closed (w : World) (o : Interp) : Prop :=
  ∀ a b, w.ssvs a = some b →
    Avail b o ∧ b.sv ≠ 0 ∧ ∃ s, w.svs b.sv = some s ∧ ValidPayload w s

/-- A stand-in for the recursive call that only logs the Backend it is called on. -/
def probeCall (a : Addr) (w : World) : Res World :=
  .ret (w.emit (.enter a))

/-- The number of slots of a payload that a teardown walks: one for a reference, the
slots of an array, the entries of a hash. -/
def slotCount (s : SV) : Nat :=
  match s.svt with
  | .SVt_RV => 1
  | .SVt_PVAV => s.ary.length
  | .SVt_PVHV => s.hents.length
  | _ => 0

/-- The heap `seqWorld` with the empty slot first: the array at 10 has the slots 12 (an
untyped, empty SV), 11 (holds the Backend at 2) and 13 (holds the Backend at 3). -/
def gapWorld : World :=
  seqWorld.setSv 10 (arraySV 1 [12, 11, 13])

/-- The heap `seqWorld` with the empty slot last: the array at 10 has the slots 11 (holds
the Backend at 2), 13 (holds the Backend at 3) and 12 (an untyped, empty SV). -/
def walkWorld : World :=
  seqWorld.setSv 10 (arraySV 1 [11, 13, 12])

/-- A heap with a cycle: the payload of the Backend at 1 is the reference at 10, count 1,
whose referent, the SV at 11, holds the Backend at 1 itself. -/
def selfWorld : World :=
  { ssvs := fun a => match a with
      | 1 => some (freeSsv 10)
      | _ => none
    svs := fun a => match a with
      | 10 => some { plainSV 1 svtype.SVt_RV with rok := true, rv := 11 }
      | 11 => some (slotSV 1)
      | _ => none
    savestack := []
    log := [] }

/-- The world `lockWorld` after interpreter 7 has locked Backend 1. -/
def lockWorld1 : World :=
  SAVEDESTRUCTOR_X 7 1 (lockWorld.setSsv 1 (heldSsv 10 7 1))

/-- The world `lockWorld1` after interpreter 7 has unlocked Backend 1 again. -/
def lockWorld2 : World :=
  lockWorld1.setSsv 1 (freeSsv 10)

/-- The holder of the mutex of the Backend at `B` (`none` when the mutex is free or there
is no Backend at `B`). -/
def mutexOf (w : World) (B : Addr) : Option Interp :=
  match w.ssvs B with
  | some b => b.mutex
  | none => none

/-- One when the step from `w` to `w1` acquired the mutex of `B` (a `MUTEX_LOCK` that
returned: the mutex was free and is held), else zero. -/
def acquired (B : Addr) (w w1 : World) : Nat :=
  if mutexOf w B = none ∧ mutexOf w1 B ≠ none then 1 else 0

/-- One when the step from `w` to `w1` released the mutex of `B` (a `MUTEX_UNLOCK` that
returned: the mutex was held and is free), else zero. -/
def released (B : Addr) (w w1 : World) : Nat :=
  if mutexOf w B ≠ none ∧ mutexOf w1 B = none then 1 else 0

/-- A run of the lock manager from `w0`, with the number of acquisitions and of releases
of the mutex of `B` counted along the steps. -/
inductive LockRun (B : Addr) (w0 : World) : World → Nat → Nat → Prop where
  | start : LockRun B w0 w0 0 0
  | step {w w1 : World} {acq rel : Nat} : LockRun B w0 w acq rel → LockStep w w1 →
      LockRun B w0 w1 (acq + acquired B w w1) (rel + released B w w1)

/-- The traced run `t`, started in `v`, leaves the Backends picked by `Keep` alone: they
are as in `v` in every world the run passes through and in the world it returns. -/
def Keeps (Keep : Addr → Prop) (v : World) (t : Traced) : Prop :=
  (∀ u ∈ t.seen, ∀ c, Keep c → u.ssvs c = v.ssvs c) ∧
  ∀ v1, t.out = .ret v1 → ∀ c, Keep c → v1.ssvs c = v.ssvs c

/-- In the world `v` the caller `O` owns no Backend but, possibly, the one at `B`. -/
def OnlyHolds (v : World) (O : Interp) (B : Addr) : Prop :=
  ∀ c b1, v.ssvs c = some b1 → b1.owner = some O → c = B

theorem getSsv_eq {w : World} {a : Addr} {b : shared_sv} (ha : a ≠ 0)
    (hb : w.ssvs a = some b) : w.getSsv a = .ret b := by
  simp [World.getSsv, ha, hb]

theorem getSv_eq {w : World} {p : Addr} {s : SV} (hp : p ≠ 0)
    (hs : w.svs p = some s) : w.getSv p = .ret s := by
  simp [World.getSv, hp, hs]

theorem getSsv_ret {w : World} {a : Addr} {b : shared_sv} (h : w.getSsv a = .ret b) :
    a ≠ 0 ∧ w.ssvs a = some b := by
  unfold World.getSsv at h
  split at h
  · cases h
  · split at h
    · rename_i hb
      refine ⟨by assumption, ?_⟩
      cases h
      exact hb
    · cases h

@[simp] theorem setSsv_ssvs_same (w : World) (a : Addr) (b : shared_sv) :
    (w.setSsv a b).ssvs a = some b := by
  simp [World.setSsv]

theorem setSsv_ssvs_other (w : World) {a c : Addr} (b : shared_sv) (h : c ≠ a) :
    (w.setSsv a b).ssvs c = w.ssvs c := by
  simp [World.setSsv, h]

@[simp] theorem setSsv_svs (w : World) (a : Addr) (b : shared_sv) :
    (w.setSsv a b).svs = w.svs := rfl

@[simp] theorem setSsv_savestack (w : World) (a : Addr) (b : shared_sv) :
    (w.setSsv a b).savestack = w.savestack := rfl

@[simp] theorem setSsv_log (w : World) (a : Addr) (b : shared_sv) :
    (w.setSsv a b).log = w.log := rfl

theorem setSsv_self {w : World} {a : Addr} {b : shared_sv} (hb : w.ssvs a = some b) :
    w.setSsv a b = w := by
  cases w with
  | mk ssvs svs savestack log =>
    simp only [World.setSsv, World.mk.injEq, and_true]
    funext c
    by_cases hc : c = a
    · subst hc
      simpa using hb.symm
    · simp [hc]

@[simp] theorem setSsv_setSsv (w : World) (a : Addr) (b c : shared_sv) :
    (w.setSsv a b).setSsv a c = w.setSsv a c := by
  simp only [World.setSsv, World.mk.injEq, and_true]
  funext x
  by_cases hx : x = a <;> simp [hx]

theorem SvIV_typed (s : SV) {t : SV} (ht : t.svt ≠ svtype.SVt_NULL) :
    SvIV s t = .ret t.iv := by
  unfold SvIV SvIVX sv_2iv
  split <;> simp [ht]

theorem SvIV_ret {s t : SV} {a : Addr} (h : SvIV s t = .ret a) : a = t.iv := by
  unfold SvIV SvIVX sv_2iv at h
  split at h
  · split at h
    · cases h
    · cases h
      rfl
  · cases h
    rfl

theorem SvIV_ne_timeout (s t : SV) : SvIV s t ≠ .timeout := by
  unfold SvIV SvIVX sv_2iv
  split
  · split <;> exact fun h => by cases h
  · exact fun h => by cases h

/-! ## One call of the lock manager -/

theorem lock_null (o : Interp) (w : World) : Perl_sharedsv_lock o 0 w = .ret w := by
  simp [Perl_sharedsv_lock]

theorem lock_owner {w : World} {a : Addr} {b : shared_sv} {o : Interp} (ha : a ≠ 0)
    (hb : w.ssvs a = some b) (ho : b.owner = some o) :
    Perl_sharedsv_lock o a w = .ret (w.setSsv a { b with locks := b.locks + 1 }) := by
  simp [Perl_sharedsv_lock, ha, getSsv_eq ha hb, Res.bind, ho]

theorem lock_unlocked {w : World} {a : Addr} {b : shared_sv} (o : Interp) (ha : a ≠ 0)
    (hb : w.ssvs a = some b) (hu : Unlocked b) :
    Perl_sharedsv_lock o a w = .ret (SAVEDESTRUCTOR_X o a
      (w.setSsv a { b with mutex := some o, locks := 1, owner := some o })) := by
  obtain ⟨h1, h2, h3⟩ := hu
  simp [Perl_sharedsv_lock, ha, getSsv_eq ha hb, Res.bind, h1, h2, h3, MUTEX_LOCK]

theorem lock_held_other {w : World} {a : Addr} {b : shared_sv} {o t : Interp} (ha : a ≠ 0)
    (hb : w.ssvs a = some b) (ho : b.owner ≠ some o) (hm : b.mutex = some t) :
    Perl_sharedsv_lock o a w = .block := by
  simp [Perl_sharedsv_lock, ha, getSsv_eq ha hb, Res.bind, ho, hm, MUTEX_LOCK]

theorem unlock_not_owner {w : World} {a : Addr} {b : shared_sv} {o : Interp} (ha : a ≠ 0)
    (hb : w.ssvs a = some b) (ho : b.owner ≠ some o) :
    Perl_sharedsv_unlock o a w = .ret w := by
  simp [Perl_sharedsv_unlock, getSsv_eq ha hb, Res.bind, ho]

theorem unlock_nested {w : World} {a : Addr} {b : shared_sv} {o : Interp} (ha : a ≠ 0)
    (hb : w.ssvs a = some b) (ho : b.owner = some o) (hd : b.locks ≠ 1) :
    Perl_sharedsv_unlock o a w = .ret (w.setSsv a { b with locks := b.locks - 1 }) := by
  have : ¬ b.locks - 1 = 0 := by omega
  simp [Perl_sharedsv_unlock, getSsv_eq ha hb, Res.bind, ho, this]

theorem unlock_last {w : World} {a : Addr} {b : shared_sv} {o : Interp} (ha : a ≠ 0)
    (hb : w.ssvs a = some b) (hh : HeldBy b o 1) :
    Perl_sharedsv_unlock o a w =
      .ret (w.setSsv a { b with locks := 0, owner := none, mutex := none }) := by
  obtain ⟨h1, h2, h3⟩ := hh
  simp [Perl_sharedsv_unlock, getSsv_eq ha hb, Res.bind, h1, h2, h3, MUTEX_UNLOCK]

theorem unlock_scope_not_owner {w : World} {a : Addr} {b : shared_sv} {o : Interp}
    (ha : a ≠ 0) (hb : w.ssvs a = some b) (ho : b.owner ≠ some o) :
    Perl_sharedsv_unlock_scope o a w = .ret w := by
  simp [Perl_sharedsv_unlock_scope, getSsv_eq ha hb, Res.bind, ho]

theorem unlock_scope_held {w : World} {a : Addr} {b : shared_sv} {o : Interp} {d : Int}
    (ha : a ≠ 0) (hb : w.ssvs a = some b) (hh : HeldBy b o d) :
    Perl_sharedsv_unlock_scope o a w =
      .ret (w.setSsv a { b with locks := 0, owner := none, mutex := none }) := by
  obtain ⟨_, h2, h3⟩ := hh
  simp [Perl_sharedsv_unlock_scope, getSsv_eq ha hb, Res.bind, h2, h3, MUTEX_UNLOCK]

/-! ## Repeated calls -/

theorem times_lock_owner (o : Interp) (a : Addr) (ha : a ≠ 0) (n : Nat) :
    ∀ (w : World) (b : shared_sv), w.ssvs a = some b → b.owner = some o →
      times n (Perl_sharedsv_lock o a) w =
        .ret (w.setSsv a { b with locks := b.locks + n }) := by
  induction n with
  | zero =>
    intro w b hb _
    simp [times, setSsv_self hb]
  | succ n ih =>
    intro w b hb ho
    rw [times, lock_owner ha hb ho]
    simp only [Res.bind]
    rw [ih _ { b with locks := b.locks + 1 } (by simp) ho]
    simp only [setSsv_setSsv]
    congr 3
    push_cast
    ring

theorem times_unlock_nested (o : Interp) (a : Addr) (ha : a ≠ 0) (n : Nat) :
    ∀ (w : World) (b : shared_sv), w.ssvs a = some b → b.owner = some o →
      (n : Int) < b.locks →
      times n (Perl_sharedsv_unlock o a) w =
        .ret (w.setSsv a { b with locks := b.locks - n }) := by
  induction n with
  | zero =>
    intro w b hb _ _
    simp [times, setSsv_self hb]
  | succ n ih =>
    intro w b hb ho hlt
    push_cast at hlt
    rw [times, unlock_nested ha hb ho (by omega)]
    simp only [Res.bind]
    rw [ih _ { b with locks := b.locks - 1 } (by simp) ho (by simp; omega)]
    simp only [setSsv_setSsv]
    congr 3
    push_cast
    ring

@[simp] theorem Res.ret_bind {α β : Type} (a : α) (f : α → Res β) :
    (Res.ret a).bind f = f a := rfl

theorem Res.bind_ret {α : Type} (r : Res α) : r.bind Res.ret = r := by
  cases r <;> rfl

theorem Res.bind_assoc {α β γ : Type} (r : Res α) (f : α → Res β) (g : β → Res γ) :
    (r.bind f).bind g = r.bind fun a => (f a).bind g := by
  cases r <;> rfl

theorem times_succ_last (op : World → Res World) (k : Nat) :
    ∀ v : World, times (k + 1) op v = (times k op v).bind op := by
  induction k with
  | zero =>
    intro v
    show (op v).bind (fun w => Res.ret w) = (Res.ret v).bind op
    rw [Res.bind_ret]
    rfl
  | succ k ih =>
    intro v
    show (op v).bind (times (k + 1) op) = ((op v).bind (times k op)).bind op
    rw [Res.bind_assoc]
    congr 1
    funext v1
    exact ih v1

theorem times_unlock_all (o : Interp) (a : Addr) (ha : a ≠ 0) (n : Nat) (w : World)
    (b : shared_sv) (hb : w.ssvs a = some b) (hh : HeldBy b o (n + 1)) :
    times (n + 1) (Perl_sharedsv_unlock o a) w =
      .ret (w.setSsv a { b with locks := 0, owner := none, mutex := none }) := by
  obtain ⟨h1, h2, h3⟩ := hh
  rw [times_succ_last, times_unlock_nested o a ha n w b hb h2 (by omega)]
  simp only [Res.bind]
  rw [unlock_last (b := { b with locks := b.locks - n }) ha (by simp)
    ⟨by simp [h1], h2, h3⟩]
  simp

/-! ## What a returning call of the lock manager did -/

theorem lock_ret_cases {o : Interp} {a : Addr} {w w1 : World}
    (h : Perl_sharedsv_lock o a w = .ret w1) :
    (a = 0 ∧ w1 = w) ∨ ∃ b, a ≠ 0 ∧ w.ssvs a = some b ∧
      ((b.owner = some o ∧ w1 = w.setSsv a { b with locks := b.locks + 1 }) ∨
       (b.owner ≠ some o ∧ b.mutex = none ∧
        w1.ssvs = (w.setSsv a
          { b with mutex := some o, locks := b.locks + 1, owner := some o }).ssvs ∧
        w1.svs = w.svs ∧ w1.log = w.log)) := by
  by_cases ha : a = 0
  · left
    subst ha
    rw [lock_null] at h
    cases h
    exact ⟨rfl, rfl⟩
  · right
    cases hg : w.ssvs a with
    | none => simp [Perl_sharedsv_lock, ha, World.getSsv, hg, Res.bind] at h
    | some b =>
      refine ⟨b, ha, rfl, ?_⟩
      by_cases ho : b.owner = some o
      · left
        rw [lock_owner ha hg ho] at h
        cases h
        exact ⟨ho, rfl⟩
      · right
        cases hm : b.mutex with
        | some t =>
          rw [lock_held_other ha hg ho hm] at h
          cases h
        | none =>
          simp only [Perl_sharedsv_lock, ha, getSsv_eq ha hg, Res.bind, ho, hm, MUTEX_LOCK,
            if_false] at h
          refine ⟨ho, rfl, ?_⟩
          split at h <;> cases h <;> simp [SAVEDESTRUCTOR_X, hm]

theorem unlock_ret_cases {o : Interp} {a : Addr} {w w1 : World}
    (h : Perl_sharedsv_unlock o a w = .ret w1) :
    ∃ b, a ≠ 0 ∧ w.ssvs a = some b ∧
      ((b.owner ≠ some o ∧ w1 = w) ∨
       (b.owner = some o ∧ b.locks ≠ 1 ∧ w1 = w.setSsv a { b with locks := b.locks - 1 }) ∨
       (b.owner = some o ∧ b.locks = 1 ∧ b.mutex = some o ∧
        w1 = w.setSsv a { b with locks := 0, owner := none, mutex := none })) := by
  cases hg : w.getSsv a with
  | ret b =>
    obtain ⟨ha, hb⟩ := getSsv_ret hg
    refine ⟨b, ha, hb, ?_⟩
    by_cases ho : b.owner = some o
    · right
      by_cases hd : b.locks = 1
      · right
        by_cases hm : b.mutex = some o
        · rw [unlock_last ha hb ⟨hd, ho, hm⟩] at h
          cases h
          exact ⟨ho, hd, hm, rfl⟩
        · simp [Perl_sharedsv_unlock, hg, Res.bind, ho, hd, MUTEX_UNLOCK, hm] at h
      · left
        rw [unlock_nested ha hb ho hd] at h
        cases h
        exact ⟨ho, hd, rfl⟩
    · left
      rw [unlock_not_owner ha hb ho] at h
      cases h
      exact ⟨ho, rfl⟩
  | block => simp [Perl_sharedsv_unlock, hg, Res.bind] at h
  | fault => simp [Perl_sharedsv_unlock, hg, Res.bind] at h
  | timeout => simp [Perl_sharedsv_unlock, hg, Res.bind] at h

theorem unlock_scope_ret_cases {o : Interp} {a : Addr} {w w1 : World}
    (h : Perl_sharedsv_unlock_scope o a w = .ret w1) :
    ∃ b, a ≠ 0 ∧ w.ssvs a = some b ∧
      ((b.owner ≠ some o ∧ w1 = w) ∨
       (b.owner = some o ∧ b.mutex = some o ∧
        w1 = w.setSsv a { b with locks := 0, owner := none, mutex := none })) := by
  cases hg : w.getSsv a with
  | ret b =>
    obtain ⟨ha, hb⟩ := getSsv_ret hg
    refine ⟨b, ha, hb, ?_⟩
    by_cases ho : b.owner = some o
    · right
      by_cases hm : b.mutex = some o
      · rw [unlock_scope_held ha hb ⟨rfl, ho, hm⟩] at h
        cases h
        exact ⟨ho, hm, rfl⟩
      · simp [Perl_sharedsv_unlock_scope, hg, Res.bind, ho, MUTEX_UNLOCK, hm] at h
    · left
      rw [unlock_scope_not_owner ha hb ho] at h
      cases h
      exact ⟨ho, rfl⟩
  | block => simp [Perl_sharedsv_unlock_scope, hg, Res.bind] at h
  | fault => simp [Perl_sharedsv_unlock_scope, hg, Res.bind] at h
  | timeout => simp [Perl_sharedsv_unlock_scope, hg, Res.bind] at h

/-- A step of the lock manager keeps the lock fields of every Backend in agreement. -/
theorem lockStep_inv {w w1 : World} (hs : LockStep w w1) (B : Addr) (b : shared_sv)
    (hb : w.ssvs B = some b) (hi : LockInv b) :
    ∃ b1, w1.ssvs B = some b1 ∧ LockInv b1 := by
  cases hs with
  | lock o a h =>
    rcases lock_ret_cases h with ⟨_, rfl⟩ | ⟨c, ha, hc, hcase⟩
    · exact ⟨b, hb, hi⟩
    · by_cases hBa : B = a
      · subst hBa
        rw [hb] at hc
        cases hc
        rcases hcase with ⟨ho, rfl⟩ | ⟨ho, hm, hw, _⟩
        · refine ⟨_, setSsv_ssvs_same _ _ _, Or.inr ⟨o, ?_, ho, ?_⟩⟩
          · rcases hi with ⟨_, h2, _⟩ | ⟨t, hpos, _, _⟩
            · rw [h2] at ho
              cases ho
            · show 0 < b.locks + 1
              omega
          · rcases hi with ⟨_, h2, _⟩ | ⟨t, _, h2, h3⟩
            · rw [h2] at ho
              cases ho
            · show b.mutex = some o
              rw [h3, ← h2, ho]
        · refine ⟨_, by rw [hw]; exact setSsv_ssvs_same _ _ _, Or.inr ⟨o, ?_, rfl, rfl⟩⟩
          rcases hi with ⟨h1, _, _⟩ | ⟨t, _, _, h3⟩
          · show 0 < b.locks + 1
            omega
          · rw [h3] at hm
            cases hm
      · rcases hcase with ⟨_, rfl⟩ | ⟨_, _, hw, _⟩
        · exact ⟨b, by rw [setSsv_ssvs_other _ _ hBa]; exact hb, hi⟩
        · exact ⟨b, by rw [hw, setSsv_ssvs_other _ _ hBa]; exact hb, hi⟩
  | unlock o a h =>
    obtain ⟨c, ha, hc, hcase⟩ := unlock_ret_cases h
    by_cases hBa : B = a
    · subst hBa
      rw [hb] at hc
      cases hc
      rcases hcase with ⟨_, rfl⟩ | ⟨ho, hd, rfl⟩ | ⟨_, _, _, rfl⟩
      · exact ⟨b, hb, hi⟩
      · refine ⟨_, setSsv_ssvs_same _ _ _, Or.inr ⟨o, ?_, ho, ?_⟩⟩
        · rcases hi with ⟨_, h2, _⟩ | ⟨t, hpos, _, _⟩
          · rw [h2] at ho
            cases ho
          · show 0 < b.locks - 1
            omega
        · rcases hi with ⟨_, h2, _⟩ | ⟨t, _, h2, h3⟩
          · rw [h2] at ho
            cases ho
          · show b.mutex = some o
            rw [h3, ← h2, ho]
      · exact ⟨_, setSsv_ssvs_same _ _ _, Or.inl ⟨rfl, rfl, rfl⟩⟩
    · rcases hcase with ⟨_, rfl⟩ | ⟨_, _, rfl⟩ | ⟨_, _, _, rfl⟩
      · exact ⟨b, hb, hi⟩
      · exact ⟨b, by rw [setSsv_ssvs_other _ _ hBa]; exact hb, hi⟩
      · exact ⟨b, by rw [setSsv_ssvs_other _ _ hBa]; exact hb, hi⟩
  | unlock_scope o a h =>
    obtain ⟨c, ha, hc, hcase⟩ := unlock_scope_ret_cases h
    by_cases hBa : B = a
    · subst hBa
      rcases hcase with ⟨_, rfl⟩ | ⟨_, _, rfl⟩
      · exact ⟨b, hb, hi⟩
      · exact ⟨_, setSsv_ssvs_same _ _ _, Or.inl ⟨rfl, rfl, rfl⟩⟩
    · rcases hcase with ⟨_, rfl⟩ | ⟨_, _, rfl⟩
      · exact ⟨b, hb, hi⟩
      · exact ⟨b, by rw [setSsv_ssvs_other _ _ hBa]; exact hb, hi⟩

/-- Every state reached from a state in which the Backend at `B` is unlocked has its lock
fields in agreement. -/
theorem lockReach_inv {w0 w : World} (hr : LockReach w0 w) (B : Addr) (b0 : shared_sv)
    (h0 : w0.ssvs B = some b0) (hu : Unlocked b0) :
    ∃ b, w.ssvs B = some b ∧ LockInv b := by
  induction hr with
  | start => exact ⟨b0, h0, Or.inl hu⟩
  | step _ hs ih =>
    obtain ⟨b, hb, hi⟩ := ih
    exact lockStep_inv hs B b hb hi

/-! ## The lock bracket of the thread-count operations -/

@[simp] theorem setSv_ssvs (w : World) (p : Addr) (s : SV) :
    (w.setSv p s).ssvs = w.ssvs := rfl

@[simp] theorem setSv_savestack (w : World) (p : Addr) (s : SV) :
    (w.setSv p s).savestack = w.savestack := rfl

@[simp] theorem setSv_log (w : World) (p : Addr) (s : SV) :
    (w.setSv p s).log = w.log := rfl

@[simp] theorem setSv_svs_same (w : World) (p : Addr) (s : SV) :
    (w.setSv p s).svs p = some s := by
  simp [World.setSv]

theorem setSv_svs_other (w : World) {p q : Addr} (s : SV) (h : q ≠ p) :
    (w.setSv p s).svs q = w.svs q := by
  simp [World.setSv, h]

/-- The macros `SHAREDSvLOCK` and `SHAREDSvEDIT` in a row on a Backend the caller can take. -/
theorem bracket_in {w : World} {a : Addr} {b : shared_sv} {o : Interp} (ha : a ≠ 0)
    (hb : w.ssvs a = some b) (hav : Avail b o) :
    (SHAREDSvLOCK o a w).bind (SHAREDSvEDIT o a) =
      .ret { ssvs := (w.setSsv a (inEdit b o)).ssvs, svs := w.svs,
             savestack := pushedIfFirst b o a w.savestack, log := w.log } := by
  simp only [SHAREDSvLOCK, SHAREDSvEDIT]
  rcases hav with hu | ⟨hd, _, h2, h3⟩
  · rw [lock_unlocked o ha hb hu]
    simp only [Res.bind, SHAREDSvEDIT, SHAREDSvLOCK, SHAREDSvUNLOCK]
    rw [lock_owner (b := { b with mutex := some o, locks := 1, owner := some o }) ha
      (by simp [SAVEDESTRUCTOR_X]) rfl]
    obtain ⟨h1, _, _⟩ := hu
    simp only [World.setSsv, SAVEDESTRUCTOR_X, inEdit, pushedIfFirst, h1, if_true,
      Res.ret.injEq, World.mk.injEq, and_true, true_and]
    funext c
    by_cases hc : c = a <;> simp [hc]
  · rw [lock_owner ha hb h2]
    simp only [Res.bind, SHAREDSvEDIT, SHAREDSvLOCK, SHAREDSvUNLOCK]
    rw [lock_owner (b := { b with locks := b.locks + 1 }) ha (by simp) h2]
    have hne : b.locks ≠ 0 := by omega
    simp only [World.setSsv, inEdit, pushedIfFirst, hne, if_false,
      Res.ret.injEq, World.mk.injEq, and_true, true_and]
    funext c
    by_cases hc : c = a
    · simp only [hc, if_true, Option.some.injEq]
      cases b
      simp_all
      ring
    · simp [hc]

/-- The macros `SHAREDSvRELEASE` and `SHAREDSvUNLOCK` in a row give the Backend back as the caller
found it. -/
theorem bracket_out {w : World} {a : Addr} {b : shared_sv} {o : Interp} (ha : a ≠ 0)
    (hb : w.ssvs a = some (inEdit b o)) (hav : Avail b o) :
    (SHAREDSvRELEASE o a w).bind (SHAREDSvUNLOCK o a) = .ret (w.setSsv a b) := by
  simp only [SHAREDSvRELEASE, SHAREDSvUNLOCK]
  rcases hav with ⟨h1, h2, h3⟩ | ⟨hd, _, h2, h3⟩
  · rw [unlock_nested (o := o) ha hb rfl (by simp [inEdit, h1])]
    simp only [Res.bind, SHAREDSvEDIT, SHAREDSvLOCK, SHAREDSvUNLOCK]
    rw [unlock_last (b := { inEdit b o with locks := (inEdit b o).locks - 1 }) ha (by simp)
      ⟨by simp [inEdit, h1], rfl, rfl⟩]
    simp only [setSsv_setSsv]
    congr 2
    cases b
    simp_all [inEdit]
  · rw [unlock_nested (o := o) ha hb rfl (by simp [inEdit]; omega)]
    simp only [Res.bind, SHAREDSvEDIT, SHAREDSvLOCK, SHAREDSvUNLOCK]
    rw [unlock_nested (b := { inEdit b o with locks := (inEdit b o).locks - 1 }) ha
      (by simp) rfl (by simp [inEdit]; omega)]
    simp only [setSsv_setSsv]
    congr 2
    cases b
    simp_all [inEdit]
    ring

theorem bracket_in_then {w : World} {a : Addr} {b : shared_sv} {o : Interp} (ha : a ≠ 0)
    (hb : w.ssvs a = some b) (hav : Avail b o) (k : World → Res World) :
    ((SHAREDSvLOCK o a w).bind fun w1 => (SHAREDSvEDIT o a w1).bind k) =
      k { ssvs := (w.setSsv a (inEdit b o)).ssvs, svs := w.svs,
          savestack := pushedIfFirst b o a w.savestack, log := w.log } := by
  rw [← Res.bind_assoc, bracket_in ha hb hav]
  rfl

theorem bracket_out_then {w : World} {a : Addr} {b : shared_sv} {o : Interp} (ha : a ≠ 0)
    (hb : w.ssvs a = some (inEdit b o)) (hav : Avail b o) (k : World → Res World) :
    ((SHAREDSvRELEASE o a w).bind fun w1 => (SHAREDSvUNLOCK o a w1).bind k) =
      k (w.setSsv a b) := by
  rw [← Res.bind_assoc, bracket_out ha hb hav]
  rfl

theorem bracket_in_entered {w : World} {a : Addr} {b : shared_sv} {o : Interp} (ha : a ≠ 0)
    (hb : w.ssvs a = some b) (hav : Avail b o) (k : World → Res World) :
    ((SHAREDSvLOCK o a (w.emit (.enter a))).bind fun w1 => (SHAREDSvEDIT o a w1).bind k) =
      k (entered w o a b) := by
  rw [bracket_in_then ha (w := w.emit (.enter a)) hb hav]
  rfl

/-! ## Calls of `Perl_sharedsv_thrcnt_dec` that go no deeper -/

theorem dec_succ (o : Interp) (fuel : Nat) (ssv : Addr) (w : World) :
    Perl_sharedsv_thrcnt_dec o (fuel + 1) ssv w =
    (SHAREDSvLOCK o ssv (w.emit (.enter ssv))).bind fun w =>
    (SHAREDSvEDIT o ssv w).bind fun w =>
    (SHAREDSvGET ssv w).bind fun sv =>
    (w.getSv sv).bind fun s =>
    (teardown (fun a w => Perl_sharedsv_thrcnt_dec o fuel a w) s w).bind fun w =>
    (SvREFCNT_dec sv (w.emit (.refdec sv))).bind fun w =>
    (SHAREDSvRELEASE o ssv w).bind fun w =>
    (SHAREDSvUNLOCK o ssv w).bind fun w =>
    .ret (w.emit (.leave ssv)) := rfl

theorem teardown_none (dec : Addr → World → Res World) {s : SV} (hn : NoTeardown s)
    (w : World) : teardown dec s w = .ret w := by
  unfold teardown
  rcases hn with h | ⟨h1, h2, h3⟩
  · simp [h]
  · split
    · split <;> simp_all
    · rfl

theorem teardown_av (dec : Addr → World → Res World) {s : SV} (hc : s.refcnt = 1)
    (ht : s.svt = svtype.SVt_PVAV) (w : World) :
    teardown dec s w = av_loop dec s.ary s.ary.length w := by
  simp [teardown, hc, ht]

theorem SvREFCNT_dec_eq {v : World} {p : Addr} {s : SV} (hp : p ≠ 0)
    (hv : v.svs p = some s) :
    SvREFCNT_dec p v =
      .ret { v with svs := (v.setSv p { s with refcnt := s.refcnt - 1 }).svs } := by
  simp only [SvREFCNT_dec, hp, if_false, getSv_eq hp hv, Res.ret_bind]
  by_cases h0 : s.refcnt = 0
  · simp only [h0, if_true, Res.ret.injEq]
    cases v with
    | mk ssvs svs savestack log =>
      simp only [World.setSv, World.mk.injEq, true_and, and_true]
      funext c
      by_cases hc : c = p
      · simp only [hc, if_true]
        rw [show svs p = some s from hv]
        cases s
        simp_all
      · simp [hc]
  · simp [h0, World.setSv]

/-- A call of `Perl_sharedsv_thrcnt_dec` by `o` on a Backend it can take, whose teardown
returns the world `wm` with the Backends as it found them: the call returns `wm` with the
count of the payload one lower (a count of 0 stays), the Backend given back as the caller
found it, and the `SvREFCNT_dec` and the return logged. -/
theorem dec_with_teardown {w : World} {a : Addr} {b : shared_sv} {o : Interp} {s t : SV}
    (fuel : Nat) (ha : a ≠ 0) (hb : w.ssvs a = some b) (hav : Avail b o) (hp : b.sv ≠ 0)
    (hs : w.svs b.sv = some s) (wm : World)
    (hmid : teardown (fun x v => Perl_sharedsv_thrcnt_dec o fuel x v) s (entered w o a b) =
      .ret wm)
    (hssvs : wm.ssvs = (entered w o a b).ssvs) (ht : wm.svs b.sv = some t) :
    Perl_sharedsv_thrcnt_dec o (fuel + 1) a w =
      .ret { ssvs := w.ssvs,
             svs := (wm.setSv b.sv { t with refcnt := t.refcnt - 1 }).svs,
             savestack := wm.savestack,
             log := wm.log ++ [Event.refdec b.sv, Event.leave a] } := by
  rw [dec_succ, bracket_in_entered ha hb hav]
  have hget : SHAREDSvGET a (entered w o a b) = .ret b.sv := by
    simp [SHAREDSvGET, World.getSsv, ha, Res.bind, inEdit, entered]
  rw [hget]
  simp only [Res.ret_bind]
  rw [getSv_eq (w := entered w o a b) hp (by simpa [entered] using hs)]
  simp only [Res.ret_bind]
  rw [hmid]
  simp only [Res.ret_bind]
  rw [SvREFCNT_dec_eq (v := wm.emit (.refdec b.sv)) hp (by simpa [World.emit] using ht)]
  simp only [Res.ret_bind]
  rw [bracket_out_then ha (b := b)
    (by simp [World.setSsv, World.emit, hssvs, entered]) hav]
  simp only [World.emit, World.setSsv, World.setSv, Res.ret.injEq, World.mk.injEq,
    List.append_assoc, List.singleton_append, and_true, true_and, hssvs, entered]
  funext c
  by_cases hc : c = a
  · simp [hc, hb]
  · simp [hc]

/-- The world a call of `Perl_sharedsv_thrcnt_dec` by `o` on the Backend `b` at `a` leaves
when it goes no deeper: the count of the payload `s` is one lower (a count of 0 stays),
the scope release is on the save stack if the call took the lock from depth 0, the three
events of the call are logged, and every Backend is as before. -/
theorem dec_no_teardown {w : World} {a : Addr} {b : shared_sv} {o : Interp} {s : SV}
    (fuel : Nat) (ha : a ≠ 0) (hb : w.ssvs a = some b) (hav : Avail b o) (hp : b.sv ≠ 0)
    (hs : w.svs b.sv = some s) (hn : NoTeardown s) :
    Perl_sharedsv_thrcnt_dec o (fuel + 1) a w =
      .ret { ssvs := w.ssvs,
             svs := (w.setSv b.sv { s with refcnt := s.refcnt - 1 }).svs,
             savestack := pushedIfFirst b o a w.savestack,
             log := w.log ++ [Event.enter a, Event.refdec b.sv, Event.leave a] } := by
  rw [dec_with_teardown (t := s) fuel ha hb hav hp hs (entered w o a b)
    (teardown_none _ hn _) rfl (by simpa [entered] using hs)]
  simp [entered, World.setSv]

/-- A call of `Perl_sharedsv_thrcnt_inc` on a Backend the caller can take, with a payload. -/
theorem inc_avail {w : World} {a : Addr} {b : shared_sv} {o : Interp} {s : SV}
    (ha : a ≠ 0) (hb : w.ssvs a = some b) (hav : Avail b o) (hp : b.sv ≠ 0)
    (hs : w.svs b.sv = some s) :
    Perl_sharedsv_thrcnt_inc o a w =
      .ret { ssvs := w.ssvs,
             svs := (w.setSv b.sv { s with refcnt := s.refcnt + 1 }).svs,
             savestack := pushedIfFirst b o a w.savestack,
             log := w.log } := by
  simp only [Perl_sharedsv_thrcnt_inc, SHAREDSvLOCK, SHAREDSvUNLOCK]
  rcases hav with hu | ⟨hd, _, h2, h3⟩
  · rw [lock_unlocked o ha hb hu]
    simp only [Res.ret_bind]
    rw [getSsv_eq (b := { b with mutex := some o, locks := 1, owner := some o }) ha
      (by simp [SAVEDESTRUCTOR_X])]
    simp only [Res.ret_bind, SvREFCNT_inc, hp, if_false]
    rw [getSv_eq hp (by simpa [SAVEDESTRUCTOR_X] using hs)]
    simp only [Res.ret_bind]
    rw [unlock_last (b := { b with mutex := some o, locks := 1, owner := some o }) ha
      (by simp [SAVEDESTRUCTOR_X]) ⟨rfl, rfl, rfl⟩]
    obtain ⟨h1, h2, h3⟩ := hu
    simp only [World.setSsv, World.setSv, SAVEDESTRUCTOR_X, pushedIfFirst, h1, if_true,
      Res.ret.injEq, World.mk.injEq, and_true, true_and]
    funext c
    by_cases hc : c = a
    · simp only [hc, if_true, hb, Option.some.injEq]
      cases b
      simp_all
    · simp [hc]
  · rw [lock_owner ha hb h2]
    simp only [Res.ret_bind]
    rw [getSsv_eq (b := { b with locks := b.locks + 1 }) ha (by simp)]
    simp only [Res.ret_bind, SvREFCNT_inc, hp, if_false]
    rw [getSv_eq hp (by simpa using hs)]
    simp only [Res.ret_bind]
    rw [unlock_nested (b := { b with locks := b.locks + 1 }) ha (by simp) h2
      (by simp; omega)]
    have hne : b.locks ≠ 0 := by omega
    simp only [World.setSsv, World.setSv, pushedIfFirst, hne, if_false,
      Res.ret.injEq, World.mk.injEq, and_true, true_and]
    funext c
    by_cases hc : c = a
    · simp only [hc, if_true, hb, Option.some.injEq]
      cases b
      simp_all
    · simp [hc]

/-- Once the slot under `src_ary` is untyped the array loop leaves it there: whatever the
number of items left, it ends without a further call. -/
theorem av_loop_stuck (dec : Addr → World → Res World) (p : Addr) (rest : List Addr)
    (s : SV) (items : Nat) (w : World) (hs : w.getSv p = .ret s)
    (ht : s.svt = svtype.SVt_NULL) :
    av_loop dec (p :: rest) items w = .ret w := by
  induction items with
  | zero => rfl
  | succ n ih =>
    rw [av_loop, hs]
    simp only [Res.ret_bind, ht, ne_eq, not_true_eq_false, if_false]
    exact ih

/-! ## Counts read off the log -/

/-- At a typed slot that is not the last one the array loop tests the flag of that slot,
reads the integer of the next slot, calls on it, and goes on two slots further. -/
theorem av_loop_typed (dec : Addr → World → Res World) {p q : Addr} {v t : SV}
    (rest : List Addr) (items : Nat) {w : World} (hv : w.getSv p = .ret v)
    (ht : v.svt ≠ svtype.SVt_NULL) (hq : w.getSv q = .ret t) :
    av_loop dec (p :: q :: rest) (items + 1) w =
      (SvIV v t).bind fun a => (dec a w).bind fun w1 => av_loop dec rest items w1 := by
  rw [av_loop, hv]
  simp only [Res.ret_bind, ne_eq, ht, not_false_eq_true, if_true, hq]

/-! ## The lock manager -/

/-- C1: from an unlocked Backend `B`, `N ≥ 1` successive `lock(B,O)` calls return with
`lock_count = N` and `owner = O` (and a `lock` by another owner then has to wait); `N`
further `unlock(B,O)` calls return with `lock_count = 0`, `owner = none` and the mutex
free, after which a `lock` by a different owner `O2` returns with `O2` as the owner. -/
theorem C1_lock_unlock_nesting (w : World) (B : Addr) (b : shared_sv) (O O2 : Interp)
    (N : Nat) (hB : B ≠ 0) (hb : w.ssvs B = some b) (hu : Unlocked b) (hN : 1 ≤ N)
    (hO : O2 ≠ O) :
    ∃ w1 b1, times N (Perl_sharedsv_lock O B) w = .ret w1 ∧ w1.ssvs B = some b1 ∧
      b1.locks = N ∧ b1.owner = some O ∧ Perl_sharedsv_lock O2 B w1 = .block ∧
      ∃ w2 b2, times N (Perl_sharedsv_unlock O B) w1 = .ret w2 ∧ w2.ssvs B = some b2 ∧
        b2.locks = 0 ∧ b2.owner = none ∧ b2.mutex = none ∧
        ∃ w3 b3, Perl_sharedsv_lock O2 B w2 = .ret w3 ∧ w3.ssvs B = some b3 ∧
          b3.locks = 1 ∧ b3.owner = some O2 ∧ b3.mutex = some O2 := by
  obtain ⟨n, rfl⟩ : ∃ n, N = n + 1 := ⟨N - 1, by omega⟩
  have hlock : times (n + 1) (Perl_sharedsv_lock O B) w =
      .ret ((SAVEDESTRUCTOR_X O B (w.setSsv B
        { b with mutex := some O, locks := 1, owner := some O })).setSsv B
        { b with mutex := some O, locks := 1 + n, owner := some O }) := by
    rw [times, lock_unlocked O hB hb hu]
    simp only [Res.bind]
    rw [times_lock_owner O B hB n _ { b with mutex := some O, locks := 1, owner := some O }
      (by simp [SAVEDESTRUCTOR_X]) rfl]
  refine ⟨_, _, hlock, setSsv_ssvs_same _ _ _, ?_, rfl, ?_, ?_⟩
  · push_cast
    ring
  · exact lock_held_other (t := O) hB (setSsv_ssvs_same _ _ _)
      (by simp; exact fun h => hO h.symm) rfl
  · have hunlock := times_unlock_all O B hB n _ _ (setSsv_ssvs_same
      (SAVEDESTRUCTOR_X O B (w.setSsv B { b with mutex := some O, locks := 1, owner := some O }))
      B { b with mutex := some O, locks := 1 + n, owner := some O })
      ⟨by simp; ring, rfl, rfl⟩
    refine ⟨_, _, hunlock, setSsv_ssvs_same _ _ _, rfl, rfl, rfl, ?_⟩
    exact ⟨_, _, lock_unlocked O2 hB (setSsv_ssvs_same _ _ _) ⟨rfl, rfl, rfl⟩,
      setSsv_ssvs_same _ _ _, rfl, rfl, rfl⟩

/-- The statement of C1 at the unlocked Backend 1 of `lockWorld`, owner 7, other owner 8
and `N = 3`. -/
theorem C1_lock_unlock_nesting_witness :
    ∃ w1 b1, times 3 (Perl_sharedsv_lock 7 1) lockWorld = .ret w1 ∧ w1.ssvs 1 = some b1 ∧
      b1.locks = (3 : Nat) ∧ b1.owner = some 7 ∧ Perl_sharedsv_lock 8 1 w1 = .block ∧
      ∃ w2 b2, times 3 (Perl_sharedsv_unlock 7 1) w1 = .ret w2 ∧ w2.ssvs 1 = some b2 ∧
        b2.locks = 0 ∧ b2.owner = none ∧ b2.mutex = none ∧
        ∃ w3 b3, Perl_sharedsv_lock 8 1 w2 = .ret w3 ∧ w3.ssvs 1 = some b3 ∧
          b3.locks = 1 ∧ b3.owner = some 8 ∧ b3.mutex = some 8 :=
  C1_lock_unlock_nesting lockWorld 1 (freeSsv 10) 7 8 3 (by decide) rfl ⟨rfl, rfl, rfl⟩
    (by decide) (by decide)

/-- C2: on a Backend held by `O` at any depth `d ≥ 1`, one `unlock_scope(B,O)` returns
with `lock_count = 0`, `owner = none` and the mutex released, changing nothing else, and
a second `unlock_scope(B,O)` returns leaving that state as it is. -/
theorem C2_unlock_scope_resets (w : World) (B : Addr) (b : shared_sv) (O : Interp)
    (d : Int) (hB : B ≠ 0) (hb : w.ssvs B = some b) (hd : 1 ≤ d) (hh : HeldBy b O d) :
    ∃ w1 b1, Perl_sharedsv_unlock_scope O B w = .ret w1 ∧ w1.ssvs B = some b1 ∧
      b1.locks = 0 ∧ b1.owner = none ∧ b1.mutex = none ∧
      b1.sv = b.sv ∧ b1.cond = b.cond ∧ (∀ a, a ≠ B → w1.ssvs a = w.ssvs a) ∧
      w1.svs = w.svs ∧ w1.savestack = w.savestack ∧
      Perl_sharedsv_unlock_scope O B w1 = .ret w1 := by
  have _ := hd
  refine ⟨_, _, unlock_scope_held hB hb hh, setSsv_ssvs_same _ _ _, rfl, rfl, rfl, rfl, rfl,
    fun a ha => setSsv_ssvs_other _ _ ha, rfl, rfl, ?_⟩
  exact unlock_scope_not_owner hB (setSsv_ssvs_same _ _ _) (by simp)

/-- The statement of C2 at Backend 2 of `lockWorld`, held by interpreter 7 at depth 3. -/
theorem C2_unlock_scope_resets_witness :
    ∃ w1 b1, Perl_sharedsv_unlock_scope 7 2 lockWorld = .ret w1 ∧ w1.ssvs 2 = some b1 ∧
      b1.locks = 0 ∧ b1.owner = none ∧ b1.mutex = none ∧
      b1.sv = (heldSsv 20 7 3).sv ∧ b1.cond = (heldSsv 20 7 3).cond ∧
      (∀ a, a ≠ 2 → w1.ssvs a = lockWorld.ssvs a) ∧
      w1.svs = lockWorld.svs ∧ w1.savestack = lockWorld.savestack ∧
      Perl_sharedsv_unlock_scope 7 2 w1 = .ret w1 :=
  C2_unlock_scope_resets lockWorld 2 (heldSsv 20 7 3) 7 3 (by decide) rfl (by decide)
    ⟨rfl, rfl, rfl⟩

/-- C8: `Perl_sharedsv_new` sets `locks` to 0 and initialises the mutex and the condition
variable, but writes neither `owner` nor the payload pointer: both keep what the allocated
block held.  On a block that last held a Backend owned by interpreter 7 the new Backend
comes back with `owner = 7`; a first `lock` by 7 then takes the re-entrant path (mutex not
acquired, no scope release registered) and a first `unlock` by 7 drives `locks` to -1. -/
theorem C8_new_leaves_owner_unset :
    (∀ raw : shared_sv, (Perl_sharedsv_new raw).locks = 0 ∧
      (Perl_sharedsv_new raw).mutex = none ∧ (Perl_sharedsv_new raw).cond = [] ∧
      (Perl_sharedsv_new raw).owner = raw.owner ∧ (Perl_sharedsv_new raw).sv = raw.sv) ∧
    (Perl_sharedsv_new (heldSsv 20 7 3)).owner = some 7 ∧
    (Perl_sharedsv_new (heldSsv 20 7 3)).sv = 20 ∧
    (∃ w1 b1, Perl_sharedsv_lock 7 3
        (lockWorld.setSsv 3 (Perl_sharedsv_new (heldSsv 20 7 3))) = .ret w1 ∧
      w1.ssvs 3 = some b1 ∧ b1.locks = 1 ∧ b1.mutex = none ∧
      w1.savestack = lockWorld.savestack) ∧
    (∃ w1 b1, Perl_sharedsv_unlock 7 3
        (lockWorld.setSsv 3 (Perl_sharedsv_new (heldSsv 20 7 3))) = .ret w1 ∧
      w1.ssvs 3 = some b1 ∧ b1.locks = -1 ∧ b1.owner = some 7) := by
  refine ⟨fun raw => ⟨rfl, rfl, rfl, rfl, rfl⟩, rfl, rfl, ?_, ?_⟩
  · exact ⟨_, _, lock_owner (by decide) (setSsv_ssvs_same _ _ _) rfl,
      setSsv_ssvs_same _ _ _, rfl, rfl, rfl⟩
  · exact ⟨_, _, unlock_nested (by decide) (setSsv_ssvs_same _ _ _) rfl (by decide),
      setSsv_ssvs_same _ _ _, rfl, rfl⟩

/-- C9: in every state reached from a state where the Backend at `B` is unlocked, by any
finite sequence of returning `lock`, `unlock` and `unlock_scope` calls of any callers on
any Backends, the Backend at `B` has `lock_count ≥ 0`, and `lock_count > 0` exactly when
its owner is set. -/
theorem C9_lock_count_owner_invariant (w0 w : World) (B : Addr) (b0 : shared_sv)
    (h0 : w0.ssvs B = some b0) (hu : Unlocked b0) (hr : LockReach w0 w) :
    ∃ b, w.ssvs B = some b ∧ 0 ≤ b.locks ∧ (0 < b.locks ↔ b.owner ≠ none) := by
  obtain ⟨b, hb, hi⟩ := lockReach_inv hr B b0 h0 hu
  refine ⟨b, hb, ?_⟩
  rcases hi with ⟨h1, h2, _⟩ | ⟨o, hpos, h2, _⟩
  · refine ⟨by omega, ?_⟩
    constructor
    · intro h
      omega
    · intro h
      exact absurd h2 h
  · refine ⟨by omega, ?_⟩
    constructor
    · intro _
      simp [h2]
    · intro _
      exact hpos

/-- The statement of C9 at the state reached from `lockWorld` when interpreter 7 locks
the unlocked Backend 1 and interpreter 8 then runs `unlock_scope` on it. -/
theorem C9_lock_count_owner_invariant_witness :
    ∃ b, (SAVEDESTRUCTOR_X 7 1 (lockWorld.setSsv 1 (heldSsv 10 7 1))).ssvs 1 = some b ∧
      0 ≤ b.locks ∧ (0 < b.locks ↔ b.owner ≠ none) :=
  C9_lock_count_owner_invariant lockWorld
    (SAVEDESTRUCTOR_X 7 1 (lockWorld.setSsv 1 (heldSsv 10 7 1))) 1
    (freeSsv 10) rfl ⟨rfl, rfl, rfl⟩
    (LockReach.step
      (LockReach.step LockReach.start
        (LockStep.lock 7 1 (lock_unlocked (b := freeSsv 10) 7 (by decide) rfl ⟨rfl, rfl, rfl⟩)))
      (LockStep.unlock_scope 8 1
        (unlock_scope_not_owner (b := heldSsv 10 7 1) (by decide) rfl (by decide))))

/-- C10: `lock(null, O)` returns with the state unchanged for every caller `O`; on every
Backend `B` whose owner is not `O` (held by someone else at any depth, or unlocked),
`unlock(B, O)` and `unlock_scope(B, O)` return with the whole state (every Backend, every
SV, the registered scope releases) unchanged. -/
theorem C10_noop_calls :
    (∀ (w : World) (O : Interp), Perl_sharedsv_lock O 0 w = .ret w) ∧
    (∀ (w : World) (B : Addr) (b : shared_sv) (O : Interp), B ≠ 0 → w.ssvs B = some b →
      b.owner ≠ some O →
      Perl_sharedsv_unlock O B w = .ret w ∧ Perl_sharedsv_unlock_scope O B w = .ret w) :=
  ⟨fun w O => lock_null O w, fun _ _ _ _ hB hb ho =>
    ⟨unlock_not_owner hB hb ho, unlock_scope_not_owner hB hb ho⟩⟩

/-- The statement of C10 at `lockWorld`: caller 8 on Backend 2 (held by 7 at depth 3) and
caller 7 on the unlocked Backend 1. -/
theorem C10_noop_calls_witness :
    Perl_sharedsv_lock 8 0 lockWorld = .ret lockWorld ∧
    (Perl_sharedsv_unlock 8 2 lockWorld = .ret lockWorld ∧
      Perl_sharedsv_unlock_scope 8 2 lockWorld = .ret lockWorld) ∧
    (Perl_sharedsv_unlock 7 1 lockWorld = .ret lockWorld ∧
      Perl_sharedsv_unlock_scope 7 1 lockWorld = .ret lockWorld) :=
  ⟨C10_noop_calls.1 lockWorld 8,
   C10_noop_calls.2 lockWorld 2 (heldSsv 20 7 3) 8 (by decide) rfl (by decide),
   C10_noop_calls.2 lockWorld 1 (freeSsv 10) 7 (by decide) rfl (by decide)⟩

/-! ## The thread counts -/

/-- C3: the array loop advances `src_ary` only inside the call it makes for a typed
slot, so an untyped slot stops the walk: from an untyped slot on, the loop ends without
any further call, whatever slots follow.  On `gapWorld`, whose array holds an empty slot,
the Backend 2 and the Backend 3, `decrement` of the container returns without a single
nested call: the payloads of the Backends 2 and 3 keep their count 1 while the count of
the array goes to 0.  With the empty slot in the middle (`seqWorld`) the call does not
return at all: `SvIV(*src_ary++)` tests the flag of slot 0 and reads the integer of the
empty slot 1, which has no body. -/
theorem C3_sequence_skips_after_empty_slot :
    (∀ (dec : Addr → World → Res World) (p : Addr) (rest : List Addr) (s : SV)
      (items : Nat) (w : World), w.getSv p = .ret s → s.svt = svtype.SVt_NULL →
      av_loop dec (p :: rest) items w = .ret w) ∧
    (∀ fuel : Nat, ∃ w1, Perl_sharedsv_thrcnt_dec 7 (fuel + 1) 1 gapWorld = .ret w1 ∧
      w1.log = [Event.enter 1, Event.refdec 10, Event.leave 1] ∧
      w1.svs 20 = some (plainSV 1 svtype.SVt_PV) ∧
      w1.svs 30 = some (plainSV 1 svtype.SVt_PV) ∧
      w1.svs 10 = some (arraySV 0 [12, 11, 13])) ∧
    (∀ dec : Addr → World → Res World,
      teardown dec (arraySV 1 [11, 12, 13]) seqWorld = .fault) ∧
    ∀ fuel : Nat, Perl_sharedsv_thrcnt_dec 7 (fuel + 1) 1 seqWorld = .fault := by
  refine ⟨av_loop_stuck, fun fuel => ⟨_, rfl, rfl, rfl, rfl, rfl⟩, fun _ => rfl,
    fun _ => rfl⟩

/-- C4: on an array of exactly two typed slots the loop makes one call only, on the
integer of the second slot (`SvIV(*src_ary++)` tests the flag of slot 0, reads slot 1 and
leaves `src_ary` behind the array), and then reads past the array: `decrement` of the
container never returns.  On `pairWorld`, whose array holds the Backends 2 (`X`) and 3
(`Y`), the only nested call of the teardown is the one on `Y`; `X` is never
decremented, and the call on the container ends in a fault. -/
theorem C4_sequence_of_two_reads_past_array :
    (∀ (dec : Addr → World → Res World) (w : World) (p q : Addr) (v t : SV),
      w.getSv p = .ret v → v.svt ≠ svtype.SVt_NULL → w.getSv q = .ret t →
      av_loop dec [p, q] 2 w = (SvIV v t).bind fun a => (dec a w).bind fun _ => .fault) ∧
    (∀ (dec : Addr → World → Res World) (px : SV),
      teardown dec (arraySV 1 [11, 12]) (pairWorld px) =
        (dec 3 (pairWorld px)).bind fun _ => .fault) ∧
    (∀ fuel : Nat,
      Perl_sharedsv_thrcnt_dec 7 (fuel + 2) 1 (pairWorld (plainSV 1 svtype.SVt_PV)) =
        .fault) ∧
    ∀ (fuel : Nat) (w1 : World),
      Perl_sharedsv_thrcnt_dec 7 fuel 1 (pairWorld (plainSV 1 svtype.SVt_PV)) ≠ .ret w1 := by
  refine ⟨fun dec w p q v t hv ht hq => ?_, fun _ _ => rfl, fun _ => rfl,
    fun fuel w1 => ?_⟩
  · rw [av_loop_typed dec [] 1 hv ht hq]
    rfl
  · match fuel with
    | 0 =>
      intro h
      cases h
    | 1 =>
      have h1 : Perl_sharedsv_thrcnt_dec 7 1 1 (pairWorld (plainSV 1 svtype.SVt_PV)) =
          .timeout := rfl
      rw [h1]
      intro h
      cases h
    | n + 2 =>
      have h2 : Perl_sharedsv_thrcnt_dec 7 (n + 2) 1 (pairWorld (plainSV 1 svtype.SVt_PV)) =
          .fault := rfl
      rw [h2]
      intro h
      cases h

/-- C6: on an unlocked Backend whose payload has count `n ≥ 1`, of any kind,
`increment` returns with the count at `n + 1` and `decrement` by the same caller then
returns with every SV as before `increment` (the count is again `n`, no other count
changed), every Backend as before (so `B` is unlocked), and a log that holds the one call
on `B` and no nested call. -/
theorem C6_increment_decrement_roundtrip (w : World) (B : Addr) (b : shared_sv)
    (O : Interp) (s : SV) (fuel : Nat) (hB : B ≠ 0) (hb : w.ssvs B = some b)
    (hu : Unlocked b) (hp : b.sv ≠ 0) (hs : w.svs b.sv = some s) (hn : 1 ≤ s.refcnt) :
    ∃ w1 w2, Perl_sharedsv_thrcnt_inc O B w = .ret w1 ∧
      w1.svs b.sv = some { s with refcnt := s.refcnt + 1 } ∧
      Perl_sharedsv_thrcnt_dec O (fuel + 1) B w1 = .ret w2 ∧
      w2.svs = w.svs ∧ w2.ssvs = w.ssvs ∧
      w2.log = w.log ++ [Event.enter B, Event.refdec b.sv, Event.leave B] := by
  refine ⟨_, _, inc_avail hB hb (Or.inl hu) hp hs, by simp [World.setSv],
    dec_no_teardown (s := { s with refcnt := s.refcnt + 1 }) fuel hB hb (Or.inl hu) hp
      (by simp [World.setSv]) (Or.inl (by simp; omega)), ?_, rfl, rfl⟩
  funext c
  by_cases hc : c = b.sv
  · simp [World.setSv, hc, hs]
  · simp [World.setSv, hc]

/-- The statement of C6 at the unlocked Backend 2 of `seqWorld` (payload 20, count 1),
caller 7. -/
theorem C6_increment_decrement_roundtrip_witness :
    ∃ w1 w2, Perl_sharedsv_thrcnt_inc 7 2 seqWorld = .ret w1 ∧
      w1.svs (freeSsv 20).sv =
        some { plainSV 1 svtype.SVt_PV with refcnt := (plainSV 1 svtype.SVt_PV).refcnt + 1 } ∧
      Perl_sharedsv_thrcnt_dec 7 (0 + 1) 2 w1 = .ret w2 ∧
      w2.svs = seqWorld.svs ∧ w2.ssvs = seqWorld.ssvs ∧
      w2.log = seqWorld.log ++ [Event.enter 2, Event.refdec (freeSsv 20).sv, Event.leave 2] :=
  C6_increment_decrement_roundtrip seqWorld 2 (freeSsv 20) 7 (plainSV 1 svtype.SVt_PV) 0
    (by decide) rfl ⟨rfl, rfl, rfl⟩ (by decide) rfl (by decide)

/-- C7: on a Backend `B` the caller can lock without waiting (unlocked, or already held
by the caller) whose payload has count `n > 1`, of any kind, `decrement` returns with the
count at `n - 1`, every other SV as before, every Backend as before (lock_count, owner
and mutex of `B` included), and a log that holds the one call on `B` and no nested
call. -/
theorem C7_decrement_above_one (w : World) (B : Addr) (b : shared_sv) (O : Interp)
    (s : SV) (fuel : Nat) (hB : B ≠ 0) (hb : w.ssvs B = some b) (hav : Avail b O)
    (hp : b.sv ≠ 0) (hs : w.svs b.sv = some s) (hn : 1 < s.refcnt) :
    ∃ w1, Perl_sharedsv_thrcnt_dec O (fuel + 1) B w = .ret w1 ∧
      w1.svs b.sv = some { s with refcnt := s.refcnt - 1 } ∧
      (∀ q, q ≠ b.sv → w1.svs q = w.svs q) ∧
      w1.ssvs = w.ssvs ∧
      w1.log = w.log ++ [Event.enter B, Event.refdec b.sv, Event.leave B] := by
  refine ⟨_, dec_no_teardown fuel hB hb hav hp hs (Or.inl (by omega)), by simp [World.setSv],
    fun q hq => by simp [World.setSv, hq], rfl, rfl⟩

/-- The statement of C7 at Backend 2 of `lockWorld`, held by the caller 7 at depth 3,
whose payload 20 has count 2. -/
theorem C7_decrement_above_one_witness :
    ∃ w1, Perl_sharedsv_thrcnt_dec 7 (0 + 1) 2 lockWorld = .ret w1 ∧
      w1.svs (heldSsv 20 7 3).sv =
        some { plainSV 2 svtype.SVt_PV with refcnt := (plainSV 2 svtype.SVt_PV).refcnt - 1 } ∧
      (∀ q, q ≠ (heldSsv 20 7 3).sv → w1.svs q = lockWorld.svs q) ∧
      w1.ssvs = lockWorld.ssvs ∧
      w1.log = lockWorld.log ++
        [Event.enter 2, Event.refdec (heldSsv 20 7 3).sv, Event.leave 2] :=
  C7_decrement_above_one lockWorld 2 (heldSsv 20 7 3) 7 (plainSV 2 svtype.SVt_PV) 0
    (by decide) rfl (Or.inr ⟨by decide, rfl, rfl, rfl⟩) (by decide) rfl (by decide)

/-! ## What no call changes: the Backends, their payload pointers, the SVs up to counts -/

theorem SameShape.refl (w : World) : SameShape w w :=
  ⟨fun _ => rfl, fun _ => rfl⟩

theorem SameShape.trans {w w1 w2 : World} (h1 : SameShape w w1) (h2 : SameShape w1 w2) :
    SameShape w w2 :=
  ⟨fun a => (h2.1 a).trans (h1.1 a), fun p => (h2.2 p).trans (h1.2 p)⟩

theorem SameShape.symm {w w1 : World} (h : SameShape w w1) : SameShape w1 w :=
  ⟨fun a => (h.1 a).symm, fun p => (h.2 p).symm⟩

theorem SameShape.of_eq {w w1 : World} (h1 : w1.ssvs = w.ssvs) (h2 : w1.svs = w.svs) :
    SameShape w w1 :=
  ⟨fun a => by rw [h1], fun p => by rw [h2]⟩

theorem sameShape_setSsv {w : World} {a : Addr} {b : shared_sv} (c : shared_sv)
    (hb : w.ssvs a = some b) (hsv : c.sv = b.sv) (hc : c.cond = b.cond) :
    SameShape w (w.setSsv a c) := by
  refine ⟨fun x => ?_, fun _ => rfl⟩
  by_cases h : x = a
  · subst h
    simp [hb, hsv, hc]
  · rw [setSsv_ssvs_other _ _ h]

theorem sameShape_setSv {w : World} {p : Addr} {s : SV} (k : Nat)
    (hs : w.svs p = some s) : SameShape w (w.setSv p { s with refcnt := k }) := by
  refine ⟨fun _ => rfl, fun q => ?_⟩
  by_cases h : q = p
  · subst h
    simp [hs, SV.shape]
  · rw [setSv_svs_other _ _ h]

theorem sameShape_emit (w : World) (e : Event) : SameShape w (w.emit e) :=
  ⟨fun _ => rfl, fun _ => rfl⟩

theorem lock_sameShape {o : Interp} {a : Addr} {w w1 : World}
    (h : Perl_sharedsv_lock o a w = .ret w1) : SameShape w w1 := by
  rcases lock_ret_cases h with ⟨_, rfl⟩ | ⟨b, _, hb, ⟨_, rfl⟩ | ⟨_, _, hss, hsv, _⟩⟩
  · exact SameShape.refl _
  · exact sameShape_setSsv _ hb rfl rfl
  · have h2 := sameShape_setSsv
      { b with mutex := some o, locks := b.locks + 1, owner := some o } hb rfl rfl
    exact ⟨fun c => by rw [hss]; exact h2.1 c, fun p => by rw [hsv]⟩

theorem unlock_sameShape {o : Interp} {a : Addr} {w w1 : World}
    (h : Perl_sharedsv_unlock o a w = .ret w1) : SameShape w w1 := by
  obtain ⟨b, _, hb, ⟨_, rfl⟩ | ⟨_, _, rfl⟩ | ⟨_, _, _, rfl⟩⟩ := unlock_ret_cases h
  · exact SameShape.refl _
  · exact sameShape_setSsv _ hb rfl rfl
  · exact sameShape_setSsv _ hb rfl rfl

theorem getSv_ret {w : World} {p : Addr} {s : SV} (h : w.getSv p = .ret s) :
    p ≠ 0 ∧ w.svs p = some s := by
  unfold World.getSv at h
  split at h
  · cases h
  · split at h
    · rename_i hs
      refine ⟨by assumption, ?_⟩
      cases h
      exact hs
    · cases h

theorem SvREFCNT_dec_sameShape {p : Addr} {w w1 : World}
    (h : SvREFCNT_dec p w = .ret w1) : SameShape w w1 := by
  by_cases hp : p = 0
  · simp [SvREFCNT_dec, hp] at h
    subst h
    exact SameShape.refl _
  · cases hg : w.getSv p with
    | ret s =>
      obtain ⟨_, hs⟩ := getSv_ret hg
      rw [SvREFCNT_dec_eq hp hs] at h
      cases h
      exact sameShape_setSv (s.refcnt - 1) hs
    | block => simp [SvREFCNT_dec, hp, hg, Res.bind] at h
    | fault => simp [SvREFCNT_dec, hp, hg, Res.bind] at h
    | timeout => simp [SvREFCNT_dec, hp, hg, Res.bind] at h

theorem Res.bind_eq_ret {α β : Type} {r : Res α} {f : α → Res β} {b : β}
    (h : r.bind f = .ret b) : ∃ a, r = .ret a ∧ f a = .ret b := by
  cases r with
  | ret a => exact ⟨a, rfl, h⟩
  | block => cases h
  | fault => cases h
  | timeout => cases h

theorem av_loop_sameShape (dec : Addr → World → Res World)
    (hdec : ∀ x v v1, dec x v = .ret v1 → SameShape v v1) (items : Nat) :
    ∀ (src : List Addr) (w w1 : World), av_loop dec src items w = .ret w1 →
      SameShape w w1 := by
  induction items with
  | zero =>
    intro src w w1 h
    cases src <;> simp [av_loop] at h <;> subst h <;> exact SameShape.refl _
  | succ n ih =>
    intro src w w1 h
    cases src with
    | nil => simp [av_loop] at h
    | cons p rest =>
      rw [av_loop] at h
      obtain ⟨s, _, h2⟩ := Res.bind_eq_ret h
      by_cases ht : s.svt = svtype.SVt_NULL
      · simp only [ht, ne_eq, not_true_eq_false, if_false] at h2
        exact ih _ _ _ h2
      · simp only [ne_eq, ht, not_false_eq_true, if_true] at h2
        cases rest with
        | nil => cases h2
        | cons q rest2 =>
          obtain ⟨t, _, h3⟩ := Res.bind_eq_ret h2
          obtain ⟨a, _, h4⟩ := Res.bind_eq_ret h3
          obtain ⟨v, hv, h5⟩ := Res.bind_eq_ret h4
          exact (hdec _ _ _ hv).trans (ih _ _ _ h5)

theorem hv_loop_sameShape (dec : Addr → World → Res World)
    (hdec : ∀ x v v1, dec x v = .ret v1 → SameShape v v1)
    (ents : List (String × Addr)) :
    ∀ (w w1 : World), hv_loop dec ents w = .ret w1 → SameShape w w1 := by
  induction ents with
  | nil =>
    intro w w1 h
    simp [hv_loop] at h
    subst h
    exact SameShape.refl _
  | cons e rest ih =>
    intro w w1 h
    rw [hv_loop] at h
    obtain ⟨s, _, h2⟩ := Res.bind_eq_ret h
    obtain ⟨a, _, h3⟩ := Res.bind_eq_ret h2
    obtain ⟨v, hv, h4⟩ := Res.bind_eq_ret h3
    exact (hdec _ _ _ hv).trans (ih _ _ h4)

theorem teardown_sameShape (dec : Addr → World → Res World)
    (hdec : ∀ x v v1, dec x v = .ret v1 → SameShape v v1) (s : SV) (w w1 : World)
    (h : teardown dec s w = .ret w1) : SameShape w w1 := by
  unfold teardown at h
  split at h
  · split at h
    · split at h
      · obtain ⟨t, _, h2⟩ := Res.bind_eq_ret h
        obtain ⟨a, _, h3⟩ := Res.bind_eq_ret h2
        exact hdec _ _ _ h3
      · cases h
        exact SameShape.refl _
    · exact av_loop_sameShape dec hdec _ _ _ _ h
    · exact hv_loop_sameShape dec hdec _ _ _ h
    · cases h
      exact SameShape.refl _
  · cases h
    exact SameShape.refl _

/-- A call of `Perl_sharedsv_thrcnt_dec` that returns has destroyed nothing: the Backends
are the same, with the same payload pointers, and the SVs are the same up to counts. -/
theorem dec_sameShape (o : Interp) (fuel : Nat) :
    ∀ (a : Addr) (w w1 : World), Perl_sharedsv_thrcnt_dec o fuel a w = .ret w1 →
      SameShape w w1 := by
  induction fuel with
  | zero =>
    intro a w w1 h
    cases h
  | succ n ih =>
    intro a w w1 h
    rw [dec_succ] at h
    obtain ⟨v1, h1, h⟩ := Res.bind_eq_ret h
    obtain ⟨v2, h2, h⟩ := Res.bind_eq_ret h
    obtain ⟨sv, _, h⟩ := Res.bind_eq_ret h
    obtain ⟨s, _, h⟩ := Res.bind_eq_ret h
    obtain ⟨v3, h3, h⟩ := Res.bind_eq_ret h
    obtain ⟨v4, h4, h⟩ := Res.bind_eq_ret h
    obtain ⟨v5, h5, h⟩ := Res.bind_eq_ret h
    obtain ⟨v6, h6, h⟩ := Res.bind_eq_ret h
    cases h
    exact (sameShape_emit w _).trans <| (lock_sameShape h1).trans <|
      (lock_sameShape h2).trans <| (teardown_sameShape _ ih s _ _ h3).trans <|
      (sameShape_emit v3 _).trans <| (SvREFCNT_dec_sameShape h4).trans <|
      (unlock_sameShape h5).trans <| (unlock_sameShape h6).trans (sameShape_emit v6 _)

/-! ## A relation kept by the steps is kept by the call -/

theorem Res.bind_ne_timeout {α β : Type} {r : Res α} {f : α → Res β}
    (hr : r ≠ .timeout) (hf : ∀ a, r = .ret a → f a ≠ .timeout) :
    r.bind f ≠ .timeout := by
  cases r with
  | ret a => exact hf a rfl
  | block => exact fun h => by cases h
  | fault => exact fun h => by cases h
  | timeout => exact absurd rfl hr

theorem getSsv_ne_timeout (w : World) (a : Addr) : w.getSsv a ≠ .timeout := by
  unfold World.getSsv
  split
  · exact fun h => by cases h
  · split <;> exact fun h => by cases h

theorem getSv_ne_timeout (w : World) (p : Addr) : w.getSv p ≠ .timeout := by
  unfold World.getSv
  split
  · exact fun h => by cases h
  · split <;> exact fun h => by cases h

theorem lock_ne_timeout (o : Interp) (a : Addr) (w : World) :
    Perl_sharedsv_lock o a w ≠ .timeout := by
  unfold Perl_sharedsv_lock
  split
  · exact fun h => by cases h
  · refine Res.bind_ne_timeout (getSsv_ne_timeout _ _) fun b _ => ?_
    split
    · exact fun h => by cases h
    · refine Res.bind_ne_timeout ?_ fun m _ => ?_
      · unfold MUTEX_LOCK
        split <;> exact fun h => by cases h
      · dsimp only
        split <;> exact fun h => by cases h

theorem unlock_ne_timeout (o : Interp) (a : Addr) (w : World) :
    Perl_sharedsv_unlock o a w ≠ .timeout := by
  unfold Perl_sharedsv_unlock
  refine Res.bind_ne_timeout (getSsv_ne_timeout _ _) fun b _ => ?_
  split
  · exact fun h => by cases h
  · dsimp only
    split
    · refine Res.bind_ne_timeout ?_ fun m _ => fun h => by cases h
      unfold MUTEX_UNLOCK
      split <;> exact fun h => by cases h
    · exact fun h => by cases h

theorem SvREFCNT_dec_ne_timeout (p : Addr) (w : World) :
    SvREFCNT_dec p w ≠ .timeout := by
  unfold SvREFCNT_dec
  split
  · exact fun h => by cases h
  · refine Res.bind_ne_timeout (getSv_ne_timeout _ _) fun s _ => ?_
    split <;> exact fun h => by cases h

theorem SHAREDSvGET_ret {a sv : Addr} {w : World} (h : SHAREDSvGET a w = .ret sv) :
    ∃ b, w.ssvs a = some b ∧ b.sv = sv := by
  unfold SHAREDSvGET at h
  obtain ⟨b, hb, h2⟩ := Res.bind_eq_ret h
  cases h2
  exact ⟨b, (getSsv_ret hb).2, rfl⟩

theorem slotTarget_sameShape {w v : World} (h : SameShape w v) (p : Addr) :
    slotTarget v p = slotTarget w p := by
  have hp := h.2 p
  unfold slotTarget
  cases h1 : v.svs p <;> cases h2 : w.svs p <;> simp [h1, h2, SV.shape] at hp ⊢
  exact hp.2.2.2.1

theorem targets_sameShape {w v : World} (h : SameShape w v) {s t : SV}
    (hst : t.shape = s.shape) : targets v t = targets w s := by
  have h1 := congrArg SV.svt hst
  have h2 := congrArg SV.rok hst
  have h3 := congrArg SV.rv hst
  have h4 := congrArg SV.ary hst
  have h5 := congrArg SV.hents hst
  simp only [SV.shape] at h1 h2 h3 h4 h5
  have hf : slotTarget v = slotTarget w := funext (slotTarget_sameShape h)
  unfold targets
  rw [h1, h2, h3, h4, h5, hf]

theorem Contains_sameShape {w v : World} (h : SameShape w v) {a x : Addr}
    (hc : Contains v a x) : Contains w a x := by
  obtain ⟨b, t, hb, ht, hx⟩ := hc
  have ha := h.1 a
  rw [hb] at ha
  cases hwa : w.ssvs a with
  | none => simp [hwa] at ha
  | some c =>
    simp only [hwa, Option.map_some', Option.some.injEq, Prod.mk.injEq] at ha
    have hp := h.2 b.sv
    rw [ht] at hp
    cases hws : w.svs b.sv with
    | none => simp [hws] at hp
    | some s =>
      simp only [hws, Option.map_some', Option.some.injEq] at hp
      refine ⟨c, s, hwa, by rw [← ha.1]; exact hws, ?_⟩
      rw [← targets_sameShape h hp]
      exact hx

theorem Ranked_sameShape {w v : World} (h : SameShape w v) {rank : Addr → Nat}
    (hr : Ranked w rank) : Ranked v rank :=
  fun a x hc => hr a x (Contains_sameShape h hc)

theorem slotTarget_of_getSv {w : World} {p : Addr} {t : SV} (h : w.getSv p = .ret t) :
    slotTarget w p = t.iv := by
  simp [slotTarget, (getSv_ret h).2]

theorem av_loop_ne_timeout (dec : Addr → World → Res World) (w0 : World) (T : List Addr)
    (hdec : ∀ x v, SameShape w0 v → x ∈ T → dec x v ≠ .timeout)
    (hframe : ∀ x v v1, dec x v = .ret v1 → SameShape v v1) (items : Nat) :
    ∀ (src : List Addr) (v : World), SameShape w0 v → (∀ p ∈ src, slotTarget w0 p ∈ T) →
      av_loop dec src items v ≠ .timeout := by
  induction items with
  | zero =>
    intro src v _ _
    cases src <;> exact fun h => by cases h
  | succ n ih =>
    intro src v hsh hsrc
    cases src with
    | nil => exact fun h => by cases h
    | cons p rest =>
      rw [av_loop]
      refine Res.bind_ne_timeout (getSv_ne_timeout _ _) fun s _ => ?_
      split
      · cases rest with
        | nil => exact fun h => by cases h
        | cons q rest2 =>
          refine Res.bind_ne_timeout (getSv_ne_timeout _ _) fun t ht => ?_
          refine Res.bind_ne_timeout (SvIV_ne_timeout _ _) fun a ha => ?_
          have hmem : a ∈ T := by
            rw [SvIV_ret ha, ← slotTarget_of_getSv ht, slotTarget_sameShape hsh]
            exact hsrc q (List.mem_cons_of_mem _ (List.mem_cons_self _ _))
          refine Res.bind_ne_timeout (hdec _ _ hsh hmem) fun v1 hv1 => ?_
          exact ih rest2 v1 (hsh.trans (hframe _ _ _ hv1))
            fun r hr => hsrc r (List.mem_cons_of_mem _ (List.mem_cons_of_mem _ hr))
      · exact ih (p :: rest) v hsh hsrc

theorem hv_loop_ne_timeout (dec : Addr → World → Res World) (w0 : World) (T : List Addr)
    (hdec : ∀ x v, SameShape w0 v → x ∈ T → dec x v ≠ .timeout)
    (hframe : ∀ x v v1, dec x v = .ret v1 → SameShape v v1)
    (ents : List (String × Addr)) :
    ∀ (v : World), SameShape w0 v → (∀ e ∈ ents, slotTarget w0 e.2 ∈ T) →
      hv_loop dec ents v ≠ .timeout := by
  induction ents with
  | nil =>
    intro v _ _
    exact fun h => by cases h
  | cons e rest ih =>
    intro v hsh hsrc
    rw [hv_loop]
    refine Res.bind_ne_timeout (getSv_ne_timeout _ _) fun t ht => ?_
    refine Res.bind_ne_timeout (SvIV_ne_timeout _ _) fun a ha => ?_
    have hmem : a ∈ T := by
      rw [SvIV_ret ha, ← slotTarget_of_getSv ht, slotTarget_sameShape hsh]
      exact hsrc e (List.mem_cons_self _ _)
    refine Res.bind_ne_timeout (hdec _ _ hsh hmem) fun v1 hv1 => ?_
    exact ih v1 (hsh.trans (hframe _ _ _ hv1)) fun q hq => hsrc q (List.mem_cons_of_mem _ hq)

theorem teardown_ne_timeout (dec : Addr → World → Res World) (w0 : World) (s : SV)
    (hdec : ∀ x v, SameShape w0 v → x ∈ targets w0 s → dec x v ≠ .timeout)
    (hframe : ∀ x v v1, dec x v = .ret v1 → SameShape v v1) :
    teardown dec s w0 ≠ .timeout := by
  unfold teardown
  split
  · split
    · rename_i hrv
      split
      · rename_i hrok
        refine Res.bind_ne_timeout (getSv_ne_timeout _ _) fun t ht => ?_
        refine Res.bind_ne_timeout (SvIV_ne_timeout _ _) fun a ha => ?_
        refine hdec _ _ (SameShape.refl _) ?_
        simp [targets, hrv, hrok, slotTarget_of_getSv ht, SvIV_ret ha]
      · exact fun h => by cases h
    · rename_i hav
      refine av_loop_ne_timeout dec w0 _ hdec hframe _ _ _ (SameShape.refl _) fun p hp => ?_
      simp only [targets, hav]
      exact List.mem_map_of_mem _ hp
    · rename_i hhv
      refine hv_loop_ne_timeout dec w0 _ hdec hframe _ _ (SameShape.refl _) fun e he => ?_
      simp only [targets, hhv]
      exact List.mem_map_of_mem (fun e : String × Addr => slotTarget w0 e.2) he
    · exact fun h => by cases h
  · exact fun h => by cases h

/-- On a heap whose payload containment is acyclic, a call with more fuel than the rank of
its Backend never runs out of fuel: the recursion is no deeper than the rank. -/
theorem dec_ne_timeout (o : Interp) (rank : Addr → Nat) (n : Nat) :
    ∀ (a : Addr) (w : World), Ranked w rank → rank a < n →
      Perl_sharedsv_thrcnt_dec o n a w ≠ .timeout := by
  induction n with
  | zero =>
    intro a w _ h
    omega
  | succ n ih =>
    intro a w hr hlt
    rw [dec_succ]
    refine Res.bind_ne_timeout (lock_ne_timeout _ _ _) fun v1 h1 => ?_
    refine Res.bind_ne_timeout (lock_ne_timeout _ _ _) fun v2 h2 => ?_
    have hsh : SameShape w v2 :=
      (sameShape_emit w _).trans ((lock_sameShape h1).trans (lock_sameShape h2))
    have hr2 : Ranked v2 rank := Ranked_sameShape hsh hr
    refine Res.bind_ne_timeout ?_ fun sv hsv => ?_
    · unfold SHAREDSvGET
      exact Res.bind_ne_timeout (getSsv_ne_timeout _ _) fun _ _ => fun h => by cases h
    refine Res.bind_ne_timeout (getSv_ne_timeout _ _) fun s hs => ?_
    obtain ⟨b, hb, hbsv⟩ := SHAREDSvGET_ret hsv
    have hs2 := (getSv_ret hs).2
    refine Res.bind_ne_timeout ?_ fun v3 _ => ?_
    · refine teardown_ne_timeout _ v2 s (fun x v hv hx => ?_)
        (fun x v v1 h => dec_sameShape o n x v v1 h)
      refine ih x v (Ranked_sameShape hv hr2) ?_
      have hc : rank x < rank a := hr2 a x ⟨b, s, hb, by rw [hbsv]; exact hs2, hx⟩
      omega
    refine Res.bind_ne_timeout (SvREFCNT_dec_ne_timeout _ _) fun v4 _ => ?_
    refine Res.bind_ne_timeout (unlock_ne_timeout _ _ _) fun v5 _ => ?_
    refine Res.bind_ne_timeout (unlock_ne_timeout _ _ _) fun v6 _ => ?_
    exact fun h => by cases h

/-- A Backend whose reference payload, count 1, points back at it: every call on it runs
out of fuel, whatever the fuel, for the count is still 1 when the nested call reads it. -/
theorem dec_self_reference (o : Interp) (B : Addr) (hB : B ≠ 0) (fuel : Nat) :
    ∀ (w : World) (b : shared_sv) (s t : SV), w.ssvs B = some b → Avail b o → b.sv ≠ 0 →
      w.svs b.sv = some s → s.refcnt = 1 → s.svt = svtype.SVt_RV → s.rok = true →
      s.rv ≠ 0 → w.svs s.rv = some t → t.svt ≠ svtype.SVt_NULL → t.iv = B →
      Perl_sharedsv_thrcnt_dec o fuel B w = .timeout := by
  induction fuel with
  | zero =>
    intro w b s t _ _ _ _ _ _ _ _ _ _ _
    rfl
  | succ n ih =>
    intro w b s t hb hav hp hs hc hty hrok hrv ht htt hiv
    rw [dec_succ, bracket_in_entered hB hb hav]
    have hget : SHAREDSvGET B (entered w o B b) = .ret b.sv := by
      simp [SHAREDSvGET, World.getSsv, hB, Res.bind, inEdit, entered]
    rw [hget]
    simp only [Res.ret_bind]
    rw [getSv_eq (w := entered w o B b) hp (by simpa [entered] using hs)]
    simp only [Res.ret_bind]
    have hav2 : Avail (inEdit b o) o := by
      refine Or.inr ⟨?_, rfl, rfl, rfl⟩
      rcases hav with ⟨h1, _, _⟩ | ⟨h1, _⟩
      · simp [inEdit, h1]
      · simp only [inEdit]
        omega
    have htd : teardown (fun x v => Perl_sharedsv_thrcnt_dec o n x v) s (entered w o B b) =
        .timeout := by
      simp only [teardown, hc, hty, hrok, if_true]
      rw [getSv_eq (w := entered w o B b) hrv (by simpa [entered] using ht)]
      simp only [Res.ret_bind, SvIV_typed t htt, hiv]
      exact ih (entered w o B b) (inEdit b o) s t (by simp [entered]) hav2 hp
        (by simpa [entered, inEdit] using hs) hc hty hrok hrv
        (by simpa [entered] using ht) htt hiv
    rw [htd]
    rfl

theorem av_loop_probe_bound (items : Nat) :
    ∀ (src : List Addr) (v v1 : World), av_loop probeCall src items v = .ret v1 →
      v1.log.length ≤ v.log.length + items := by
  induction items with
  | zero =>
    intro src v v1 h
    cases src <;> simp [av_loop] at h <;> subst h <;> simp
  | succ n ih =>
    intro src v v1 h
    cases src with
    | nil => simp [av_loop] at h
    | cons p rest =>
      rw [av_loop] at h
      obtain ⟨t, _, h2⟩ := Res.bind_eq_ret h
      by_cases ht : t.svt = svtype.SVt_NULL
      · simp only [ht, ne_eq, not_true_eq_false, if_false] at h2
        have := ih _ _ _ h2
        omega
      · simp only [ne_eq, ht, not_false_eq_true, if_true] at h2
        cases rest with
        | nil => cases h2
        | cons q rest2 =>
          obtain ⟨u, _, h3⟩ := Res.bind_eq_ret h2
          obtain ⟨a, _, h4⟩ := Res.bind_eq_ret h3
          simp only [probeCall, Res.ret_bind] at h4
          have := ih _ _ _ h4
          simp only [World.emit, List.length_append, List.length_singleton] at this
          omega

theorem hv_loop_probe_bound (ents : List (String × Addr)) :
    ∀ (v v1 : World), hv_loop probeCall ents v = .ret v1 →
      v1.log.length = v.log.length + ents.length := by
  induction ents with
  | nil =>
    intro v v1 h
    simp [hv_loop] at h
    subst h
    simp
  | cons e rest ih =>
    intro v v1 h
    rw [hv_loop] at h
    obtain ⟨t, _, h2⟩ := Res.bind_eq_ret h
    obtain ⟨a, _, h3⟩ := Res.bind_eq_ret h2
    simp only [probeCall, Res.ret_bind] at h3
    have := ih _ _ h3
    simp only [World.emit, List.length_append, List.length_singleton] at this
    simp only [List.length_cons]
    omega

/-- With the recursive call replaced by a probe that logs its argument, a teardown logs
at most one call per slot of the payload. -/
theorem teardown_probe_bound (s : SV) (v v1 : World)
    (h : teardown probeCall s v = .ret v1) :
    v1.log.length ≤ v.log.length + slotCount s := by
  unfold teardown at h
  unfold slotCount
  split at h
  · split at h
    · split at h
      · obtain ⟨t, _, h2⟩ := Res.bind_eq_ret h
        obtain ⟨a, _, h3⟩ := Res.bind_eq_ret h2
        simp only [probeCall] at h3
        cases h3
        simp [World.emit]
      · cases h
        simp
    · exact av_loop_probe_bound _ _ _ _ h
    · exact (hv_loop_probe_bound _ _ _ h).le
    · cases h
      simp
  · cases h
    omega

/-! ## The call returns on closed acyclic heaps -/

theorem svs_of_sameShape {w v : World} (h : SameShape w v) {p : Addr} {t : SV}
    (ht : w.svs p = some t) : ∃ u, v.svs p = some u ∧ u.shape = t.shape := by
  have hp := h.2 p
  rw [ht] at hp
  cases hv : v.svs p with
  | none => simp [hv] at hp
  | some u =>
    simp only [hv, Option.map_some', Option.some.injEq] at hp
    exact ⟨u, rfl, hp⟩

theorem ssvs_ne_none_of_sameShape {w v : World} (h : SameShape w v) {x : Addr}
    (hx : w.ssvs x ≠ none) : v.ssvs x ≠ none := by
  have h1 := h.1 x
  intro hv
  rw [hv] at h1
  cases hw : w.ssvs x with
  | none => exact hx hw
  | some b => simp [hw] at h1

theorem ValidTarget_like {w v : World} (hsh : SameShape w v)
    {p : Addr} (h : ValidTarget w p) : ValidTarget v p := by
  obtain ⟨hp, t, ht, hty, hiv, hx⟩ := h
  obtain ⟨u, hu, hut⟩ := svs_of_sameShape hsh ht
  have hiv2 : u.iv = t.iv := by
    have := congrArg SV.iv hut
    simpa [SV.shape] using this
  have hty2 : u.svt = t.svt := by
    have := congrArg SV.svt hut
    simpa [SV.shape] using this
  exact ⟨hp, u, hu, by rw [hty2]; exact hty, by rw [hiv2]; exact hiv,
    by rw [hiv2]; exact ssvs_ne_none_of_sameShape hsh hx⟩

theorem ValidWalk_like {w v : World} (hsh : SameShape w v) :
    ∀ l : List Addr, ValidWalk w l → ValidWalk v l
  | [], h => by
    simp only [ValidWalk] at h
  | [p], h => by
    simp only [ValidWalk] at h ⊢
    obtain ⟨hp, t, ht, hty⟩ := h
    obtain ⟨u, hu, hut⟩ := svs_of_sameShape hsh ht
    have hty2 : u.svt = t.svt := by
      have := congrArg SV.svt hut
      simpa [SV.shape] using this
    exact ⟨hp, u, hu, by rw [hty2]; exact hty⟩
  | p :: q :: rest, h => by
    simp only [ValidWalk] at h ⊢
    obtain ⟨hp, t, ht, himp⟩ := h
    obtain ⟨u, hu, hut⟩ := svs_of_sameShape hsh ht
    have hty2 : u.svt = t.svt := by
      have := congrArg SV.svt hut
      simpa [SV.shape] using this
    refine ⟨hp, u, hu, fun hn => ?_⟩
    obtain ⟨h1, h2⟩ := himp (by rw [← hty2]; exact hn)
    exact ⟨ValidTarget_like hsh h1, ValidWalk_like hsh rest h2⟩

theorem ValidPayload_like {w v : World} (hsh : SameShape w v)
    {s u : SV} (hus : u.shape = s.shape) (h : ValidPayload w s) : ValidPayload v u := by
  have h1 := congrArg SV.svt hus
  have h2 := congrArg SV.rok hus
  have h3 := congrArg SV.rv hus
  have h4 := congrArg SV.ary hus
  have h5 := congrArg SV.hents hus
  simp only [SV.shape] at h1 h2 h3 h4 h5
  unfold ValidPayload at h ⊢
  rw [h1, h2, h3, h4, h5]
  split
  · rename_i hrv
    simp only [hrv] at h
    exact fun hr => ValidTarget_like hsh (h hr)
  · rename_i hav
    simp only [hav] at h
    rcases h with h | h
    · exact Or.inl h
    · exact Or.inr (ValidWalk_like hsh _ h)
  · rename_i hhv
    simp only [hhv] at h
    exact fun e he => ValidTarget_like hsh (h e he)
  · trivial

theorem Closed_like {w v : World} {o : Interp} (hss : v.ssvs = w.ssvs)
    (hsh : SameShape w v) (h : Closed w o) : Closed v o := by
  intro a b hb
  rw [hss] at hb
  obtain ⟨hav, hp, s, hs, hvp⟩ := h a b hb
  obtain ⟨u, hu, hus⟩ := svs_of_sameShape hsh hs
  exact ⟨hav, hp, u, hu, ValidPayload_like hsh hus hvp⟩

theorem Avail_inEdit {b : shared_sv} {o : Interp} (hav : Avail b o) :
    Avail (inEdit b o) o := by
  refine Or.inr ⟨?_, rfl, rfl, rfl⟩
  rcases hav with ⟨h1, _, _⟩ | ⟨h1, _⟩
  · simp [inEdit, h1]
  · simp only [inEdit]
    omega

theorem entered_sameShape {w : World} (o : Interp) {a : Addr} {b : shared_sv}
    (hb : w.ssvs a = some b) : SameShape w (entered w o a b) := by
  have h2 := sameShape_setSsv (inEdit b o) hb rfl rfl
  exact ⟨fun c => h2.1 c, fun _ => rfl⟩

theorem Closed_entered {w : World} {o : Interp} {a : Addr} {b : shared_sv}
    (hb : w.ssvs a = some b) (h : Closed w o) : Closed (entered w o a b) o := by
  intro c d hd
  by_cases hc : c = a
  · subst hc
    have hd2 : d = inEdit b o := by
      simpa [entered, World.setSsv] using hd.symm
    subst hd2
    obtain ⟨hav, hp, s, hs, hvp⟩ := h c b hb
    exact ⟨Avail_inEdit hav, hp, s, hs, ValidPayload_like (entered_sameShape o hb) rfl hvp⟩
  · have hd2 : w.ssvs c = some d := by
      simpa [entered, World.setSsv, hc] using hd
    obtain ⟨hav, hp, s, hs, hvp⟩ := h c d hd2
    exact ⟨hav, hp, s, hs, ValidPayload_like (entered_sameShape o hb) rfl hvp⟩

/-- On an array whose walk stays inside the array, with nested calls that return, the
array loop returns. -/
theorem av_loop_returns (dec : Addr → World → Res World) (w0 : World) (T : List Addr)
    (hdec : ∀ x v, v.ssvs = w0.ssvs → SameShape w0 v → x ∈ T → x ≠ 0 →
      w0.ssvs x ≠ none → ∃ v1, dec x v = .ret v1 ∧ v1.ssvs = v.ssvs)
    (hframe : ∀ x v v1, dec x v = .ret v1 → SameShape v v1) (items : Nat) :
    ∀ (src : List Addr) (v : World), v.ssvs = w0.ssvs → SameShape w0 v →
      (items = 0 ∨ ValidWalk w0 src) → (∀ p ∈ src, slotTarget w0 p ∈ T) →
      ∃ v1, av_loop dec src items v = .ret v1 ∧ v1.ssvs = w0.ssvs := by
  induction items with
  | zero =>
    intro src v hss _ _ _
    cases src <;> exact ⟨v, rfl, hss⟩
  | succ n ih =>
    intro src v hss hsh hwalk hsrc
    have hwalk2 : ValidWalk w0 src := by
      rcases hwalk with h | h
      · omega
      · exact h
    have hwv : ValidWalk v src := ValidWalk_like hsh src hwalk2
    match src, hwalk2, hwv, hsrc with
    | [], h, _, _ => simp only [ValidWalk] at h
    | [p], _, h, _ =>
      simp only [ValidWalk] at h
      obtain ⟨hp, u, hu, hty⟩ := h
      exact ⟨v, av_loop_stuck dec p [] u (n + 1) v (getSv_eq hp hu) hty, hss⟩
    | p :: q :: rest, h0, h, hsrc =>
      simp only [ValidWalk] at h h0
      obtain ⟨hp, u, hu, himp⟩ := h
      by_cases hn : u.svt = svtype.SVt_NULL
      · exact ⟨v, av_loop_stuck dec p (q :: rest) u (n + 1) v (getSv_eq hp hu) hn, hss⟩
      · obtain ⟨⟨hq, t, ht, hty, hiv, hx⟩, _⟩ := himp hn
        obtain ⟨_, s0, hs0, himp0⟩ := h0
        have hs0t : s0.svt ≠ svtype.SVt_NULL := by
          obtain ⟨u2, hu2, hus⟩ := svs_of_sameShape hsh hs0
          rw [hu] at hu2
          cases hu2
          have := congrArg SV.svt hus
          simp only [SV.shape] at this
          rw [← this]
          exact hn
        obtain ⟨⟨_, t0, ht0, _, hiv0, hx0⟩, hrest0⟩ := himp0 hs0t
        have htt0 : t.iv = t0.iv := by
          obtain ⟨t2, ht2, hts⟩ := svs_of_sameShape hsh ht0
          rw [ht] at ht2
          cases ht2
          have := congrArg SV.iv hts
          simpa [SV.shape] using this
        have htgt : slotTarget w0 q = t0.iv := by simp [slotTarget, ht0]
        have hmem : t.iv ∈ T := by
          rw [htt0, ← htgt]
          exact hsrc q (List.mem_cons_of_mem _ (List.mem_cons_self _ _))
        obtain ⟨v1, hv1, hss1⟩ := hdec t.iv v hss hsh hmem hiv (by rw [htt0]; exact hx0)
        rw [av_loop_typed dec rest n (getSv_eq hp hu) hn (getSv_eq hq ht), SvIV_typed u hty]
        simp only [Res.ret_bind]
        rw [hv1]
        simp only [Res.ret_bind]
        exact ih rest v1 (hss1.trans hss) (hsh.trans (hframe _ _ _ hv1)) (Or.inr hrest0)
          fun r hr => hsrc r (List.mem_cons_of_mem _ (List.mem_cons_of_mem _ hr))

theorem hv_loop_returns (dec : Addr → World → Res World) (w0 : World) (T : List Addr)
    (hdec : ∀ x v, v.ssvs = w0.ssvs → SameShape w0 v → x ∈ T → x ≠ 0 →
      w0.ssvs x ≠ none → ∃ v1, dec x v = .ret v1 ∧ v1.ssvs = v.ssvs)
    (hframe : ∀ x v v1, dec x v = .ret v1 → SameShape v v1)
    (ents : List (String × Addr)) :
    ∀ (v : World), v.ssvs = w0.ssvs → SameShape w0 v →
      (∀ e ∈ ents, ValidTarget w0 e.2 ∧ slotTarget w0 e.2 ∈ T) →
      ∃ v1, hv_loop dec ents v = .ret v1 ∧ v1.ssvs = w0.ssvs := by
  induction ents with
  | nil =>
    intro v hss _ _
    exact ⟨v, rfl, hss⟩
  | cons e rest ih =>
    intro v hss hsh hsrc
    obtain ⟨⟨hp, t, ht, hty0, hiv0, hx⟩, hmem⟩ := hsrc e (List.mem_cons_self _ _)
    obtain ⟨u, hu, hut⟩ := svs_of_sameShape hsh ht
    have hiv : u.iv = t.iv := by
      have := congrArg SV.iv hut
      simpa [SV.shape] using this
    have hty : u.svt ≠ svtype.SVt_NULL := by
      have := congrArg SV.svt hut
      simp only [SV.shape] at this
      rw [this]
      exact hty0
    have htgt : slotTarget w0 e.2 = t.iv := by simp [slotTarget, ht]
    rw [hv_loop, getSv_eq hp hu]
    simp only [Res.ret_bind]
    rw [SvIV_typed u hty]
    simp only [Res.ret_bind]
    obtain ⟨v1, hv1, hss1⟩ := hdec u.iv v hss hsh (by rw [hiv, ← htgt]; exact hmem)
      (by rw [hiv]; exact hiv0) (by rw [hiv]; exact hx)
    rw [hv1]
    simp only [Res.ret_bind]
    exact ih v1 (hss1.trans hss) (hsh.trans (hframe _ _ _ hv1))
      fun q hq => hsrc q (List.mem_cons_of_mem _ hq)

theorem teardown_returns (dec : Addr → World → Res World) (w0 : World) (s : SV)
    (hvp : ValidPayload w0 s)
    (hdec : ∀ x v, v.ssvs = w0.ssvs → SameShape w0 v → x ∈ targets w0 s → x ≠ 0 →
      w0.ssvs x ≠ none → ∃ v1, dec x v = .ret v1 ∧ v1.ssvs = v.ssvs)
    (hframe : ∀ x v v1, dec x v = .ret v1 → SameShape v v1) :
    ∃ v1, teardown dec s w0 = .ret v1 ∧ v1.ssvs = w0.ssvs := by
  unfold teardown
  unfold ValidPayload at hvp
  split
  · split
    · rename_i hrv
      simp only [hrv] at hvp
      split
      · rename_i hrok
        obtain ⟨hp, t, ht, hty, hiv, hx⟩ := hvp hrok
        rw [getSv_eq hp ht]
        simp only [Res.ret_bind]
        rw [SvIV_typed t hty]
        simp only [Res.ret_bind]
        exact hdec t.iv w0 rfl (SameShape.refl _)
          (by simp [targets, hrv, hrok, slotTarget, ht]) hiv hx
      · exact ⟨w0, rfl, rfl⟩
    · rename_i hav
      simp only [hav] at hvp
      refine av_loop_returns dec w0 _ hdec hframe _ _ _ rfl (SameShape.refl _) ?_
        fun p hp => ?_
      · rcases hvp with h | h
        · exact Or.inl (by rw [h]; rfl)
        · exact Or.inr h
      · simp only [targets, hav]
        exact List.mem_map_of_mem _ hp
    · rename_i hhv
      simp only [hhv] at hvp
      refine hv_loop_returns dec w0 _ hdec hframe _ _ rfl (SameShape.refl _)
        fun e he => ⟨hvp e he, ?_⟩
      simp only [targets, hhv]
      exact List.mem_map_of_mem (fun e : String × Addr => slotTarget w0 e.2) he
    · exact ⟨w0, rfl, rfl⟩
  · exact ⟨w0, rfl, rfl⟩

/-- On a closed heap whose payload containment is acyclic, a call on a Backend with more
fuel than its rank returns, and gives every Backend back as it found it. -/
theorem dec_returns (o : Interp) (rank : Addr → Nat) (n : Nat) :
    ∀ (a : Addr) (w : World), Ranked w rank → Closed w o → rank a < n → a ≠ 0 →
      w.ssvs a ≠ none →
      ∃ w1, Perl_sharedsv_thrcnt_dec o n a w = .ret w1 ∧ w1.ssvs = w.ssvs := by
  induction n with
  | zero =>
    intro a w _ _ h
    omega
  | succ n ih =>
    intro a w hr hcl hlt ha hne
    cases hb : w.ssvs a with
    | none => exact absurd hb hne
    | some b =>
      obtain ⟨hav, hp, s, hs, hvp⟩ := hcl a b hb
      have hshE : SameShape w (entered w o a b) := entered_sameShape o hb
      have hrE : Ranked (entered w o a b) rank := Ranked_sameShape hshE hr
      have hclE : Closed (entered w o a b) o := Closed_entered hb hcl
      have hsE : (entered w o a b).svs b.sv = some s := by simpa [entered] using hs
      have hbE : (entered w o a b).ssvs a = some (inEdit b o) := by
        simp [entered, World.setSsv]
      obtain ⟨wm, hmid, hssm⟩ := teardown_returns
        (fun x v => Perl_sharedsv_thrcnt_dec o n x v) (entered w o a b) s
        (ValidPayload_like hshE rfl hvp)
        (fun x v hss hsh hx hx0 hxne => by
          have hc : rank x < rank a := hrE a x ⟨inEdit b o, s, hbE, hsE, hx⟩
          exact ih x v (Ranked_sameShape hsh hrE) (Closed_like hss hsh hclE) (by omega) hx0
            (by rw [hss]; exact hxne))
        (fun x v v1 h => dec_sameShape o n x v v1 h)
      have hshm : SameShape (entered w o a b) wm :=
        teardown_sameShape _ (fun x v v1 h => dec_sameShape o n x v v1 h) s _ _ hmid
      obtain ⟨u, hu, _⟩ := svs_of_sameShape hshm hsE
      exact ⟨_, dec_with_teardown n ha hb hav hp hs wm hmid hssm hu, rfl⟩

/-! ## The sample heaps `walkWorld` and `mapWorld` are acyclic and closed -/

theorem walkWorld_ssvs_cases (a : Addr) (b : shared_sv) (h : walkWorld.ssvs a = some b) :
    (a = 1 ∧ b = freeSsv 10) ∨ (a = 2 ∧ b = freeSsv 20) ∨ (a = 3 ∧ b = freeSsv 30) := by
  have h2 : seqWorld.ssvs a = some b := h
  unfold seqWorld at h2
  dsimp only at h2
  split at h2
  · left
    exact ⟨rfl, by cases h2; rfl⟩
  · right
    left
    exact ⟨rfl, by cases h2; rfl⟩
  · right
    right
    exact ⟨rfl, by cases h2; rfl⟩
  · cases h2

theorem walkWorld_ranked : Ranked walkWorld (fun a => if a = 1 then 1 else 0) := by
  intro a x ⟨b, s, hb, hs, hx⟩
  rcases walkWorld_ssvs_cases a b hb with ⟨rfl, rfl⟩ | ⟨rfl, rfl⟩ | ⟨rfl, rfl⟩
  · have hs2 : s = arraySV 1 [11, 13, 12] := by
      have h10 : walkWorld.svs 10 = some (arraySV 1 [11, 13, 12]) := rfl
      rw [show (freeSsv 10).sv = 10 from rfl, h10] at hs
      cases hs
      rfl
    subst hs2
    have hx2 : x = 2 ∨ x = 3 ∨ x = 0 := by
      simpa [targets, arraySV, slotTarget, walkWorld, seqWorld, World.setSv, slotSV,
        plainSV] using hx
    rcases hx2 with rfl | rfl | rfl <;> decide
  · have hs2 : s = plainSV 1 svtype.SVt_PV := by
      have h20 : walkWorld.svs 20 = some (plainSV 1 svtype.SVt_PV) := rfl
      rw [show (freeSsv 20).sv = 20 from rfl, h20] at hs
      cases hs
      rfl
    subst hs2
    simp [targets, plainSV] at hx
  · have hs2 : s = plainSV 1 svtype.SVt_PV := by
      have h30 : walkWorld.svs 30 = some (plainSV 1 svtype.SVt_PV) := rfl
      rw [show (freeSsv 30).sv = 30 from rfl, h30] at hs
      cases hs
      rfl
    subst hs2
    simp [targets, plainSV] at hx

theorem walkWorld_closed (o : Interp) : Closed walkWorld o := by
  intro a b hb
  rcases walkWorld_ssvs_cases a b hb with ⟨rfl, rfl⟩ | ⟨rfl, rfl⟩ | ⟨rfl, rfl⟩
  · refine ⟨Or.inl ⟨rfl, rfl, rfl⟩, by decide, arraySV 1 [11, 13, 12], rfl, Or.inr ?_⟩
    show ValidWalk walkWorld [11, 13, 12]
    simp only [ValidWalk]
    refine ⟨by decide, slotSV 2, rfl, fun _ => ⟨⟨by decide, slotSV 3, rfl, by decide,
      by decide, ?_⟩, by decide, plainSV 1 svtype.SVt_NULL, rfl, rfl⟩⟩
    show walkWorld.ssvs 3 ≠ none
    exact fun h => by cases h
  · exact ⟨Or.inl ⟨rfl, rfl, rfl⟩, by decide, plainSV 1 svtype.SVt_PV, rfl, trivial⟩
  · exact ⟨Or.inl ⟨rfl, rfl, rfl⟩, by decide, plainSV 1 svtype.SVt_PV, rfl, trivial⟩

theorem mapWorld_ssvs_cases (ents : List (String × Addr)) (a : Addr) (b : shared_sv)
    (h : (mapWorld ents).ssvs a = some b) :
    (a = 1 ∧ b = freeSsv 10) ∨ (a = 2 ∧ b = freeSsv 20) := by
  unfold mapWorld at h
  dsimp only at h
  split at h
  · left
    exact ⟨rfl, by cases h; rfl⟩
  · right
    exact ⟨rfl, by cases h; rfl⟩
  · cases h

theorem mapWorld_ranked :
    Ranked (mapWorld [("a", 11)]) (fun a => if a = 1 then 1 else 0) := by
  intro a x ⟨b, s, hb, hs, hx⟩
  rcases mapWorld_ssvs_cases _ a b hb with ⟨rfl, rfl⟩ | ⟨rfl, rfl⟩
  · have hs2 : s = hashSV 1 [("a", 11)] := by
      have h10 : (mapWorld [("a", 11)]).svs 10 = some (hashSV 1 [("a", 11)]) := rfl
      rw [show (freeSsv 10).sv = 10 from rfl, h10] at hs
      cases hs
      rfl
    subst hs2
    have hx2 : x = 2 := by
      simpa [targets, hashSV, slotTarget, mapWorld, slotSV] using hx
    subst hx2
    decide
  · have hs2 : s = plainSV 1 svtype.SVt_PV := by
      have h20 : (mapWorld [("a", 11)]).svs 20 = some (plainSV 1 svtype.SVt_PV) := rfl
      rw [show (freeSsv 20).sv = 20 from rfl, h20] at hs
      cases hs
      rfl
    subst hs2
    simp [targets, plainSV] at hx

@[simp] theorem Traced.atom_out (r : Res World) : (Traced.atom r).out = r := by
  cases r <;> rfl

theorem Traced.andThen_out (t : Traced) (f : World → Traced) :
    (t.andThen f).out = t.out.bind fun w => (f w).out := by
  unfold Traced.andThen
  cases h : t.out <;> simp [Res.bind]

theorem Traced.lift_out {α : Type} (r : Res α) (f : α → Traced) :
    (Traced.lift r f).out = r.bind fun a => (f a).out := by
  cases r <;> rfl

theorem incT_out (o : Interp) (a : Addr) (w : World) :
    (incT o a w).out = Perl_sharedsv_thrcnt_inc o a w := by
  simp only [incT, Perl_sharedsv_thrcnt_inc, Traced.andThen_out, Traced.lift_out,
    Traced.atom_out]

theorem av_loopT_out (decT1 : Addr → World → Traced) (dec : Addr → World → Res World)
    (hd : ∀ x v, (decT1 x v).out = dec x v) (items : Nat) :
    ∀ (src : List Addr) (w : World),
      (av_loopT decT1 src items w).out = av_loop dec src items w := by
  induction items with
  | zero =>
    intro src w
    cases src <;> rfl
  | succ n ih =>
    intro src w
    cases src with
    | nil => rfl
    | cons p rest =>
      rw [av_loopT, av_loop, Traced.lift_out]
      congr 1
      funext t
      split
      · cases rest with
        | nil => rfl
        | cons q rest2 =>
          simp only [Traced.lift_out, Traced.andThen_out, hd, ih]
      · exact ih (p :: rest) w

theorem hv_loopT_out (decT1 : Addr → World → Traced) (dec : Addr → World → Res World)
    (hd : ∀ x v, (decT1 x v).out = dec x v) (ents : List (String × Addr)) :
    ∀ (w : World), (hv_loopT decT1 ents w).out = hv_loop dec ents w := by
  induction ents with
  | nil =>
    intro w
    rfl
  | cons e rest ih =>
    intro w
    rw [hv_loopT, hv_loop]
    simp only [Traced.lift_out, Traced.andThen_out, hd, ih]

theorem teardownT_out (decT1 : Addr → World → Traced) (dec : Addr → World → Res World)
    (hd : ∀ x v, (decT1 x v).out = dec x v) (s : SV) (w : World) :
    (teardownT decT1 s w).out = teardown dec s w := by
  unfold teardownT teardown
  split
  · split
    · split
      · simp only [Traced.lift_out, hd]
      · rfl
    · exact av_loopT_out decT1 dec hd _ _ _
    · exact hv_loopT_out decT1 dec hd _ _
    · rfl
  · rfl

/-- The traced `decrement` has the outcome of `Perl_sharedsv_thrcnt_dec`. -/
theorem decT_out (o : Interp) (fuel : Nat) :
    ∀ (a : Addr) (w : World), (decT o fuel a w).out = Perl_sharedsv_thrcnt_dec o fuel a w := by
  induction fuel with
  | zero =>
    intro a w
    rfl
  | succ n ih =>
    intro a w
    rw [decT, dec_succ]
    simp only [Traced.andThen_out, Traced.lift_out, Traced.atom_out]
    congr 1
    funext v1
    congr 1
    funext v2
    congr 1
    funext sv
    congr 1
    funext s
    rw [teardownT_out _ _ ih]

/-! ## The worlds a traced run passes through -/

theorem Traced.seen_atom {r : Res World} {P : World → Prop}
    (h : ∀ v, r = .ret v → P v) : ∀ v ∈ (Traced.atom r).seen, P v := by
  intro v hv
  cases r with
  | ret w1 =>
    have : v = w1 := by simpa [Traced.atom] using hv
    subst this
    exact h v rfl
  | block => simp [Traced.atom] at hv
  | fault => simp [Traced.atom] at hv
  | timeout => simp [Traced.atom] at hv

theorem Traced.seen_andThen {t : Traced} {f : World → Traced} {P : World → Prop}
    (h1 : ∀ v ∈ t.seen, P v) (h2 : ∀ w1, t.out = .ret w1 → ∀ v ∈ (f w1).seen, P v) :
    ∀ v ∈ (t.andThen f).seen, P v := by
  intro v hv
  unfold Traced.andThen at hv
  cases h : t.out with
  | ret w1 =>
    simp only [h, List.mem_append] at hv
    rcases hv with hv | hv
    · exact h1 v hv
    · exact h2 w1 h v hv
  | block =>
    simp only [h] at hv
    exact h1 v hv
  | fault =>
    simp only [h] at hv
    exact h1 v hv
  | timeout =>
    simp only [h] at hv
    exact h1 v hv

theorem Traced.seen_lift {α : Type} {r : Res α} {f : α → Traced} {P : World → Prop}
    (h : ∀ a, r = .ret a → ∀ v ∈ (f a).seen, P v) : ∀ v ∈ (Traced.lift r f).seen, P v := by
  intro v hv
  cases r with
  | ret a => exact h a rfl v hv
  | block => simp [Traced.lift] at hv
  | fault => simp [Traced.lift] at hv
  | timeout => simp [Traced.lift] at hv

theorem lock_ssvs_other {o : Interp} {a : Addr} {w w1 : World}
    (h : Perl_sharedsv_lock o a w = .ret w1) : ∀ c, c ≠ a → w1.ssvs c = w.ssvs c := by
  intro c hc
  rcases lock_ret_cases h with ⟨_, rfl⟩ | ⟨b, _, _, ⟨_, rfl⟩ | ⟨_, _, hss, _, _⟩⟩
  · rfl
  · exact setSsv_ssvs_other _ _ hc
  · rw [hss]
    exact setSsv_ssvs_other _ _ hc

theorem lock_svs {o : Interp} {a : Addr} {w w1 : World}
    (h : Perl_sharedsv_lock o a w = .ret w1) : w1.svs = w.svs := by
  rcases lock_ret_cases h with ⟨_, rfl⟩ | ⟨b, _, _, ⟨_, rfl⟩ | ⟨_, _, _, hsv, _⟩⟩
  · rfl
  · rfl
  · exact hsv

theorem unlock_ssvs_other {o : Interp} {a : Addr} {w w1 : World}
    (h : Perl_sharedsv_unlock o a w = .ret w1) : ∀ c, c ≠ a → w1.ssvs c = w.ssvs c := by
  intro c hc
  obtain ⟨b, _, _, ⟨_, rfl⟩ | ⟨_, _, rfl⟩ | ⟨_, _, _, rfl⟩⟩ := unlock_ret_cases h
  · rfl
  · exact setSsv_ssvs_other _ _ hc
  · exact setSsv_ssvs_other _ _ hc

theorem SvREFCNT_inc_ssvs {p : Addr} {w w1 : World} (h : SvREFCNT_inc p w = .ret w1) :
    w1.ssvs = w.ssvs := by
  unfold SvREFCNT_inc at h
  split at h
  · cases h
    rfl
  · obtain ⟨t, _, h2⟩ := Res.bind_eq_ret h
    cases h2
    rfl

theorem SvREFCNT_dec_ssvs {p : Addr} {w w1 : World} (h : SvREFCNT_dec p w = .ret w1) :
    w1.ssvs = w.ssvs := by
  unfold SvREFCNT_dec at h
  split at h
  · cases h
    rfl
  · obtain ⟨t, _, h2⟩ := Res.bind_eq_ret h
    split at h2 <;> cases h2 <;> rfl

theorem teardownT_none (dec : Addr → World → Traced) {s : SV} (hn : NoTeardown s)
    (w : World) : teardownT dec s w = ⟨[], .ret w⟩ := by
  unfold teardownT
  rcases hn with h | ⟨h1, h2, h3⟩
  · simp [h]
  · split
    · split <;> simp_all
    · rfl

/-- During `increment` no Backend other than the one the call is made on has its lock
fields, or anything else, changed. -/
theorem incT_seen (o : Interp) (a : Addr) (w : World) :
    ∀ v ∈ (incT o a w).seen, ∀ c, c ≠ a → v.ssvs c = w.ssvs c := by
  unfold incT
  refine Traced.seen_andThen
    (Traced.seen_atom fun v1 h1 => lock_ssvs_other h1) fun v1 h1 => ?_
  have h1' : Perl_sharedsv_lock o a w = .ret v1 := by simpa [SHAREDSvLOCK] using h1
  refine Traced.seen_lift fun b _ => ?_
  refine Traced.seen_andThen (Traced.seen_atom fun v2 h2 c hc => ?_) fun v2 h2 => ?_
  · rw [SvREFCNT_inc_ssvs h2]
    exact lock_ssvs_other h1' c hc
  · have h2' : SvREFCNT_inc b.sv v1 = .ret v2 := by simpa using h2
    refine Traced.seen_atom fun v3 h3 c hc => ?_
    rw [unlock_ssvs_other (by simpa [SHAREDSvUNLOCK] using h3) c hc, SvREFCNT_inc_ssvs h2']
    exact lock_ssvs_other h1' c hc

/-- During a `decrement` that goes no deeper no Backend other than the one the call is
made on has its lock fields, or anything else, changed. -/
theorem decT_seen_no_teardown {w : World} {a : Addr} {b : shared_sv} {s : SV}
    (o : Interp) (fuel : Nat) (hb : w.ssvs a = some b) (hs : w.svs b.sv = some s)
    (hn : NoTeardown s) :
    ∀ v ∈ (decT o (fuel + 1) a w).seen, ∀ c, c ≠ a → v.ssvs c = w.ssvs c := by
  rw [decT]
  refine Traced.seen_andThen
    (Traced.seen_atom fun v1 h1 c hc =>
      lock_ssvs_other (w := w.emit (.enter a)) (by simpa [SHAREDSvLOCK] using h1) c hc)
    fun v1 h1 => ?_
  have h1' : Perl_sharedsv_lock o a (w.emit (.enter a)) = .ret v1 := by
    simpa [SHAREDSvLOCK] using h1
  have e1 : ∀ c, c ≠ a → v1.ssvs c = w.ssvs c := fun c hc =>
    lock_ssvs_other (w := w.emit (.enter a)) h1' c hc
  refine Traced.seen_andThen (Traced.seen_atom fun v2 h2 c hc => ?_) fun v2 h2 => ?_
  · rw [lock_ssvs_other (by simpa [SHAREDSvEDIT, SHAREDSvLOCK] using h2) c hc]
    exact e1 c hc
  have h2' : Perl_sharedsv_lock o a v1 = .ret v2 := by
    simpa [SHAREDSvEDIT, SHAREDSvLOCK] using h2
  have e2 : ∀ c, c ≠ a → v2.ssvs c = w.ssvs c := fun c hc =>
    (lock_ssvs_other h2' c hc).trans (e1 c hc)
  have hsv1 : v1.svs = w.svs := lock_svs (w := w.emit (.enter a)) h1'
  have hsv2 : v2.svs = w.svs := (lock_svs h2').trans hsv1
  have hsh : SameShape w v2 :=
    (sameShape_emit w _).trans ((lock_sameShape h1').trans (lock_sameShape h2'))
  refine Traced.seen_lift fun sv hsv => ?_
  obtain ⟨b2, hb2, hb2sv⟩ := SHAREDSvGET_ret hsv
  have hsveq : sv = b.sv := by
    have h3 := hsh.1 a
    rw [hb2, hb] at h3
    simp only [Option.map_some', Option.some.injEq, Prod.mk.injEq] at h3
    rw [← hb2sv]
    exact h3.1
  refine Traced.seen_lift fun t ht => ?_
  have hts : t = s := by
    have h4 := (getSv_ret ht).2
    rw [hsveq, hsv2, hs] at h4
    cases h4
    rfl
  subst hts
  rw [teardownT_none _ hn]
  refine Traced.seen_andThen (fun v hv => by simp at hv) fun v3 h3 => ?_
  have h3' : v3 = v2 := by
    simp only [Res.ret.injEq] at h3
    exact h3.symm
  subst h3'
  refine Traced.seen_andThen (Traced.seen_atom fun v4 h4 c hc => ?_) fun v4 h4 => ?_
  · rw [SvREFCNT_dec_ssvs h4]
    exact e2 c hc
  have e4 : ∀ c, c ≠ a → v4.ssvs c = w.ssvs c := fun c hc => by
    rw [SvREFCNT_dec_ssvs (by simpa using h4)]
    exact e2 c hc
  refine Traced.seen_andThen (Traced.seen_atom fun v5 h5 c hc => ?_) fun v5 h5 => ?_
  · rw [unlock_ssvs_other (by simpa [SHAREDSvRELEASE, SHAREDSvUNLOCK] using h5) c hc]
    exact e4 c hc
  have e5 : ∀ c, c ≠ a → v5.ssvs c = w.ssvs c := fun c hc => by
    rw [unlock_ssvs_other (by simpa [SHAREDSvRELEASE, SHAREDSvUNLOCK] using h5) c hc]
    exact e4 c hc
  refine Traced.seen_andThen (Traced.seen_atom fun v6 h6 c hc => ?_) fun v6 _ => ?_
  · rw [unlock_ssvs_other (by simpa [SHAREDSvUNLOCK] using h6) c hc]
    exact e5 c hc
  · intro v hv
    simp at hv

/-! ## Nested calls leave the Backends above them alone -/

theorem Keeps.atom {Keep : Addr → Prop} {v : World} {r : Res World}
    (h : ∀ v1, r = .ret v1 → ∀ c, Keep c → v1.ssvs c = v.ssvs c) :
    Keeps Keep v (Traced.atom r) :=
  ⟨Traced.seen_atom h, fun v1 h1 => h v1 (by simpa using h1)⟩

theorem Keeps.andThen {Keep : Addr → Prop} {v : World} {t : Traced} {f : World → Traced}
    (h1 : Keeps Keep v t) (h2 : ∀ v1, t.out = .ret v1 → Keeps Keep v1 (f v1)) :
    Keeps Keep v (t.andThen f) := by
  constructor
  · refine Traced.seen_andThen h1.1 fun v1 hv1 u hu c hc => ?_
    rw [(h2 v1 hv1).1 u hu c hc, h1.2 v1 hv1 c hc]
  · intro v2 hv2 c hc
    rw [Traced.andThen_out] at hv2
    obtain ⟨v1, hv1, h3⟩ := Res.bind_eq_ret hv2
    rw [(h2 v1 hv1).2 v2 h3 c hc, h1.2 v1 hv1 c hc]

theorem Keeps.lift {α : Type} {Keep : Addr → Prop} {v : World} {r : Res α}
    {f : α → Traced} (h : ∀ a, r = .ret a → Keeps Keep v (f a)) :
    Keeps Keep v (Traced.lift r f) := by
  constructor
  · exact Traced.seen_lift fun a ha => (h a ha).1
  · intro v1 hv1 c hc
    rw [Traced.lift_out] at hv1
    obtain ⟨a, ha, h3⟩ := Res.bind_eq_ret hv1
    exact (h a ha).2 v1 h3 c hc

theorem Keeps.done {Keep : Addr → Prop} {v v1 : World}
    (h : ∀ c, Keep c → v1.ssvs c = v.ssvs c) : Keeps Keep v ⟨[], .ret v1⟩ :=
  ⟨fun u hu => by simp at hu, fun v2 h2 c hc => by cases h2; exact h c hc⟩

theorem Keeps.stop {Keep : Addr → Prop} {v : World} {r : Res World}
    (hr : ∀ v1, r ≠ .ret v1) : Keeps Keep v ⟨[], r⟩ :=
  ⟨fun u hu => by simp at hu, fun v2 h2 => absurd h2 (hr v2)⟩

theorem Keeps.mono {Keep Keep2 : Addr → Prop} {v : World} {t : Traced}
    (h : ∀ c, Keep2 c → Keep c) (hk : Keeps Keep v t) : Keeps Keep2 v t :=
  ⟨fun u hu c hc => hk.1 u hu c (h c hc), fun v1 h1 c hc => hk.2 v1 h1 c (h c hc)⟩

theorem av_loopT_keeps (Keep : Addr → Prop) (decT1 : Addr → World → Traced) (w0 : World)
    (T : List Addr)
    (hdec : ∀ x v, SameShape w0 v → x ∈ T →
      Keeps Keep v (decT1 x v) ∧ ∀ v1, (decT1 x v).out = .ret v1 → SameShape v v1)
    (items : Nat) :
    ∀ (src : List Addr) (v : World), SameShape w0 v → (∀ p ∈ src, slotTarget w0 p ∈ T) →
      Keeps Keep v (av_loopT decT1 src items v) := by
  induction items with
  | zero =>
    intro src v _ _
    cases src <;> exact Keeps.done fun _ _ => rfl
  | succ n ih =>
    intro src v hsh hsrc
    cases src with
    | nil => exact Keeps.stop fun v1 h => by cases h
    | cons p rest =>
      rw [av_loopT]
      refine Keeps.lift fun s _ => ?_
      split
      · cases rest with
        | nil => exact Keeps.stop fun v1 h => by cases h
        | cons q rest2 =>
          refine Keeps.lift fun t ht => ?_
          refine Keeps.lift fun a ha => ?_
          have hmem : a ∈ T := by
            rw [SvIV_ret ha, ← slotTarget_of_getSv ht, slotTarget_sameShape hsh]
            exact hsrc q (List.mem_cons_of_mem _ (List.mem_cons_self _ _))
          obtain ⟨hk, hs1⟩ := hdec a v hsh hmem
          exact Keeps.andThen hk fun v1 hv1 => ih rest2 v1 (hsh.trans (hs1 v1 hv1))
            fun r hr => hsrc r (List.mem_cons_of_mem _ (List.mem_cons_of_mem _ hr))
      · exact ih (p :: rest) v hsh hsrc

theorem hv_loopT_keeps (Keep : Addr → Prop) (decT1 : Addr → World → Traced) (w0 : World)
    (T : List Addr)
    (hdec : ∀ x v, SameShape w0 v → x ∈ T →
      Keeps Keep v (decT1 x v) ∧ ∀ v1, (decT1 x v).out = .ret v1 → SameShape v v1)
    (ents : List (String × Addr)) :
    ∀ (v : World), SameShape w0 v → (∀ e ∈ ents, slotTarget w0 e.2 ∈ T) →
      Keeps Keep v (hv_loopT decT1 ents v) := by
  induction ents with
  | nil =>
    intro v _ _
    exact Keeps.done fun _ _ => rfl
  | cons e rest ih =>
    intro v hsh hsrc
    rw [hv_loopT]
    refine Keeps.lift fun t ht => ?_
    refine Keeps.lift fun a ha => ?_
    have hmem : a ∈ T := by
      rw [SvIV_ret ha, ← slotTarget_of_getSv ht, slotTarget_sameShape hsh]
      exact hsrc e (List.mem_cons_self _ _)
    obtain ⟨hk, hs1⟩ := hdec a v hsh hmem
    exact Keeps.andThen hk fun v1 hv1 => ih v1 (hsh.trans (hs1 v1 hv1))
      fun r hr => hsrc r (List.mem_cons_of_mem _ hr)

theorem teardownT_keeps (Keep : Addr → Prop) (decT1 : Addr → World → Traced) (w0 : World)
    (s : SV)
    (hdec : ∀ x v, SameShape w0 v → x ∈ targets w0 s →
      Keeps Keep v (decT1 x v) ∧ ∀ v1, (decT1 x v).out = .ret v1 → SameShape v v1) :
    Keeps Keep w0 (teardownT decT1 s w0) := by
  unfold teardownT
  split
  · split
    · rename_i hrv
      split
      · rename_i hrok
        refine Keeps.lift fun t ht => ?_
        refine Keeps.lift fun a ha => ?_
        refine (hdec a w0 (SameShape.refl _) ?_).1
        simp [targets, hrv, hrok, slotTarget_of_getSv ht, SvIV_ret ha]
      · exact Keeps.done fun _ _ => rfl
    · rename_i hav
      refine av_loopT_keeps Keep decT1 w0 _ hdec _ _ _ (SameShape.refl _) fun p hp => ?_
      simp only [targets, hav]
      exact List.mem_map_of_mem _ hp
    · rename_i hhv
      refine hv_loopT_keeps Keep decT1 w0 _ hdec _ _ (SameShape.refl _) fun e he => ?_
      simp only [targets, hhv]
      exact List.mem_map_of_mem (fun e : String × Addr => slotTarget w0 e.2) he
    · exact Keeps.done fun _ _ => rfl
  · exact Keeps.done fun _ _ => rfl

/-- On a heap whose payload containment is acyclic, a call on the Backend at `a` leaves
every Backend of higher rank, so every Backend that is not below `a`, as it is, at every
point of the run. -/
theorem decT_keeps (o : Interp) (rank : Addr → Nat) (n : Nat) :
    ∀ (a : Addr) (w : World), Ranked w rank →
      Keeps (fun c => rank a < rank c) w (decT o n a w) := by
  induction n with
  | zero =>
    intro a w _
    exact Keeps.stop fun v1 h => by cases h
  | succ n ih =>
    intro a w hr
    have hne : ∀ c, rank a < rank c → c ≠ a := by
      intro c hc h
      rw [h] at hc
      exact Nat.lt_irrefl _ hc
    rw [decT]
    refine Keeps.andThen (Keeps.atom fun v1 h1 c hc => ?_) fun v1 h1 => ?_
    · exact lock_ssvs_other (w := w.emit (.enter a)) (by simpa [SHAREDSvLOCK] using h1) c
        (hne c hc)
    have h1' : Perl_sharedsv_lock o a (w.emit (.enter a)) = .ret v1 := by
      simpa [SHAREDSvLOCK] using h1
    refine Keeps.andThen (Keeps.atom fun v2 h2 c hc => ?_) fun v2 h2 => ?_
    · exact lock_ssvs_other (by simpa [SHAREDSvEDIT, SHAREDSvLOCK] using h2) c (hne c hc)
    have h2' : Perl_sharedsv_lock o a v1 = .ret v2 := by
      simpa [SHAREDSvEDIT, SHAREDSvLOCK] using h2
    have hsh : SameShape w v2 :=
      (sameShape_emit w _).trans ((lock_sameShape h1').trans (lock_sameShape h2'))
    have hr2 : Ranked v2 rank := Ranked_sameShape hsh hr
    refine Keeps.lift fun sv hsv => ?_
    refine Keeps.lift fun s hs => ?_
    obtain ⟨b, hb, hbsv⟩ := SHAREDSvGET_ret hsv
    have hs2 := (getSv_ret hs).2
    have htd : Keeps (fun c => rank a ≤ rank c) v2
        (teardownT (fun x v => decT o n x v) s v2) :=
      teardownT_keeps _ _ v2 s fun x v hv hx =>
        ⟨Keeps.mono (fun c hc =>
            Nat.lt_of_lt_of_le (hr2 a x ⟨b, s, hb, by rw [hbsv]; exact hs2, hx⟩) hc)
          (ih x v (Ranked_sameShape hv hr2)),
         fun v1 hv1 => dec_sameShape o n x v v1 (by rw [← decT_out]; exact hv1)⟩
    refine Keeps.andThen (Keeps.mono (fun c hc => Nat.le_of_lt hc) htd) fun v3 _ => ?_
    refine Keeps.andThen (Keeps.atom fun v4 h4 c _ => ?_) fun v4 _ => ?_
    · rw [SvREFCNT_dec_ssvs h4]
      rfl
    refine Keeps.andThen (Keeps.atom fun v5 h5 c hc => ?_) fun v5 _ => ?_
    · exact unlock_ssvs_other (by simpa [SHAREDSvRELEASE, SHAREDSvUNLOCK] using h5) c
        (hne c hc)
    refine Keeps.andThen (Keeps.atom fun v6 h6 c hc => ?_) fun v6 _ => ?_
    · exact unlock_ssvs_other (by simpa [SHAREDSvUNLOCK] using h6) c (hne c hc)
    exact Keeps.done fun _ _ => rfl

theorem Traced.andThen_seen (t : Traced) (f : World → Traced) :
    ∃ tail, (t.andThen f).seen = t.seen ++ tail := by
  unfold Traced.andThen
  cases h : t.out with
  | ret w1 => exact ⟨(f w1).seen, rfl⟩
  | block => exact ⟨[], by simp⟩
  | fault => exact ⟨[], by simp⟩
  | timeout => exact ⟨[], by simp⟩

/-- The worlds of a traced `decrement` on a Backend the caller can take: the world after
`SHAREDSvLOCK`, the world after `SHAREDSvEDIT` (the Backend held two levels deeper), then
the worlds of the teardown run started there, then the rest. -/
theorem decT_seen_split {w : World} {a : Addr} {b : shared_sv} {o : Interp} {s : SV}
    (fuel : Nat) (ha : a ≠ 0) (hb : w.ssvs a = some b) (hav : Avail b o) (hp : b.sv ≠ 0)
    (hs : w.svs b.sv = some s) :
    ∃ w1 tail, (decT o (fuel + 1) a w).seen =
      w1 :: entered w o a b ::
        ((teardownT (fun x v => decT o fuel x v) s (entered w o a b)).seen ++ tail) := by
  have hbr := bracket_in_entered ha hb hav (o := o) (w := w) Res.ret
  obtain ⟨w1, h1, h2⟩ := Res.bind_eq_ret hbr
  obtain ⟨w2, h2, h3⟩ := Res.bind_eq_ret h2
  cases h3
  have hget : SHAREDSvGET a (entered w o a b) = .ret b.sv := by
    simp [SHAREDSvGET, World.getSsv, ha, Res.bind, inEdit, entered]
  have hgs : (entered w o a b).getSv b.sv = .ret s :=
    getSv_eq hp (by simpa [entered] using hs)
  obtain ⟨tail, ht⟩ := Traced.andThen_seen
    (teardownT (fun x v => decT o fuel x v) s (entered w o a b))
    (fun w => (Traced.atom (SvREFCNT_dec b.sv (w.emit (.refdec b.sv)))).andThen fun w =>
      (Traced.atom (SHAREDSvRELEASE o a w)).andThen fun w =>
      (Traced.atom (SHAREDSvUNLOCK o a w)).andThen fun w =>
      ⟨[], .ret (w.emit (.leave a))⟩)
  refine ⟨w1, tail, ?_⟩
  rw [decT, h1]
  simp only [Traced.andThen, Traced.atom, h2, Traced.lift, hget, hgs] at ht ⊢
  rw [← ht]
  rfl

theorem onlyHolds_of_eq {w v : World} {O : Interp} {B : Addr}
    (h : ∀ c, c ≠ B → v.ssvs c = w.ssvs c) (hw : OnlyHolds w O B) : OnlyHolds v O B := by
  intro c b1 hc ho
  by_contra hne
  rw [h c hne] at hc
  exact hne (hw c b1 hc ho)

/-! ## Counted runs of the lock manager -/

theorem lockRun_reach {B : Addr} {w0 w : World} {acq rel : Nat}
    (hr : LockRun B w0 w acq rel) : LockReach w0 w := by
  induction hr with
  | start => exact LockReach.start
  | step _ hs ih => exact LockReach.step ih hs

/-- Along a run the acquisitions are the releases plus one when the mutex is held. -/
theorem lockRun_balance {B : Addr} {w0 w : World} {acq rel : Nat}
    (hr : LockRun B w0 w acq rel) (h0 : mutexOf w0 B = none) :
    acq = rel + (if mutexOf w B = none then 0 else 1) := by
  induction hr with
  | start => simp [h0]
  | step _ _ ih =>
    rename_i v v1 a r _ _
    unfold acquired released
    by_cases h1 : mutexOf v B = none <;> by_cases h2 : mutexOf v1 B = none <;>
      simp [h1, h2] at ih ⊢ <;> omega

/-- On a Backend whose lock fields agree, `unlock` and `unlock_scope` by any caller
return. -/
theorem unlock_returns_of_inv {w : World} {B : Addr} {b : shared_sv} (o : Interp)
    (hB : B ≠ 0) (hb : w.ssvs B = some b) (hi : LockInv b) :
    (∃ w1, Perl_sharedsv_unlock o B w = .ret w1) ∧
    (∃ w1, Perl_sharedsv_unlock_scope o B w = .ret w1) := by
  by_cases ho : b.owner = some o
  · have hm : b.mutex = some o := by
      rcases hi with ⟨_, h2, _⟩ | ⟨t, _, h2, h3⟩
      · rw [h2] at ho
        cases ho
      · rw [h3, ← h2, ho]
    refine ⟨?_, _, unlock_scope_held hB hb ⟨rfl, ho, hm⟩⟩
    by_cases hd : b.locks = 1
    · exact ⟨_, unlock_last hB hb ⟨hd, ho, hm⟩⟩
    · exact ⟨_, unlock_nested hB hb ho hd⟩
  · exact ⟨⟨_, unlock_not_owner hB hb ho⟩, ⟨_, unlock_scope_not_owner hB hb ho⟩⟩

/-! ## The lock manager, continued -/

/-- C11: `Perl_sharedsv_unlock` reads `ssv->owner` with no test of `ssv`: on a null
Backend it dereferences the null pointer, for every caller and in every state, and so
does `Perl_sharedsv_unlock_scope`, while `Perl_sharedsv_lock` returns at once on a null
Backend and leaves the state as it is. -/
theorem C11_unlock_null_dereferences :
    (∀ (O : Interp) (w : World), Perl_sharedsv_unlock O 0 w = .fault) ∧
    (∀ (O : Interp) (w : World), Perl_sharedsv_unlock_scope O 0 w = .fault) ∧
    (∀ (O : Interp) (w : World), Perl_sharedsv_lock O 0 w = .ret w) :=
  ⟨fun _ _ => rfl, fun _ _ => rfl, fun O w => lock_null O w⟩

/-- C12: in every state reached from a state where the Backend at `B` is unlocked, the
holder of the mutex of `B` is its owner, and while an owner `O1` is set (which is when
`lock_count > 0`), a `lock(B, O2)` by any other caller `O2` waits: it does not return, so
no step of the lock manager makes `O2` the owner. -/
theorem C12_cross_owner_exclusion (w0 w : World) (B : Addr) (b0 : shared_sv) (hB : B ≠ 0)
    (h0 : w0.ssvs B = some b0) (hu : Unlocked b0) (hr : LockReach w0 w) :
    ∃ b, w.ssvs B = some b ∧ b.mutex = b.owner ∧ (0 < b.locks ↔ b.owner ≠ none) ∧
      ∀ O1 O2 : Interp, b.owner = some O1 → O2 ≠ O1 →
        Perl_sharedsv_lock O2 B w = .block ∧
        ∀ w1, ¬ (Perl_sharedsv_lock O2 B w = .ret w1) := by
  obtain ⟨b, hb, hi⟩ := lockReach_inv hr B b0 h0 hu
  refine ⟨b, hb, ?_, ?_, ?_⟩
  · rcases hi with ⟨_, h2, h3⟩ | ⟨o, _, h2, h3⟩
    · rw [h2, h3]
    · rw [h2, h3]
  · rcases hi with ⟨h1, h2, _⟩ | ⟨o, hpos, h2, _⟩
    · simp [h1, h2]
    · simp [hpos, h2]
  · intro O1 O2 ho hne
    have hm : b.mutex = some O1 := by
      rcases hi with ⟨_, h2, _⟩ | ⟨o, _, h2, h3⟩
      · rw [h2] at ho
        cases ho
      · rw [h3, ← h2, ho]
    have hblock : Perl_sharedsv_lock O2 B w = .block :=
      lock_held_other hB hb (by rw [ho]; simpa using fun h : O1 = O2 => hne h.symm) hm
    refine ⟨hblock, fun w1 h => ?_⟩
    rw [hblock] at h
    cases h

/-- The statement of C12 at the state reached from `lockWorld` when interpreter 7 locks
the unlocked Backend 1. -/
theorem C12_cross_owner_exclusion_witness :
    ∃ b, (SAVEDESTRUCTOR_X 7 1 (lockWorld.setSsv 1 (heldSsv 10 7 1))).ssvs 1 = some b ∧
      b.mutex = b.owner ∧ (0 < b.locks ↔ b.owner ≠ none) ∧
      ∀ O1 O2 : Interp, b.owner = some O1 → O2 ≠ O1 →
        Perl_sharedsv_lock O2 1
          (SAVEDESTRUCTOR_X 7 1 (lockWorld.setSsv 1 (heldSsv 10 7 1))) = .block ∧
        ∀ w1, ¬ (Perl_sharedsv_lock O2 1
          (SAVEDESTRUCTOR_X 7 1 (lockWorld.setSsv 1 (heldSsv 10 7 1))) = .ret w1) :=
  C12_cross_owner_exclusion lockWorld
    (SAVEDESTRUCTOR_X 7 1 (lockWorld.setSsv 1 (heldSsv 10 7 1))) 1 (freeSsv 10)
    (by decide) rfl ⟨rfl, rfl, rfl⟩
    (LockReach.step LockReach.start
      (LockStep.lock 7 1 (lock_unlocked (b := freeSsv 10) 7 (by decide) rfl ⟨rfl, rfl, rfl⟩)))

/-- C13: on an unlocked Backend `B`, the first `lock(B,O)` registers one scope release
of `B` for `O`, and `N ≥ 1` successive `lock(B,O)` calls leave exactly that one entry
more on the save stack; a `lock` by the current owner registers nothing; and on a Backend
whose lock fields agree, a `lock` that returns registers a scope release exactly when it
found `lock_count = 0`. -/
theorem C13_scope_release_registered_once (w : World) (B : Addr) (b : shared_sv)
    (O : Interp) (N : Nat) (hB : B ≠ 0) (hb : w.ssvs B = some b) (hu : Unlocked b)
    (hN : 1 ≤ N) :
    (∃ w1, Perl_sharedsv_lock O B w = .ret w1 ∧ w1.savestack = (O, B) :: w.savestack) ∧
    (∃ wN, times N (Perl_sharedsv_lock O B) w = .ret wN ∧
      wN.savestack = (O, B) :: w.savestack) ∧
    (∀ (v : World) (c : shared_sv), v.ssvs B = some c → c.owner = some O →
      ∃ v1, Perl_sharedsv_lock O B v = .ret v1 ∧ v1.savestack = v.savestack) ∧
    (∀ (v v1 : World) (c : shared_sv) (o : Interp), v.ssvs B = some c → LockInv c →
      Perl_sharedsv_lock o B v = .ret v1 →
      (c.locks = 0 ∧ v1.savestack = (o, B) :: v.savestack) ∨
      (c.locks ≠ 0 ∧ v1.savestack = v.savestack)) := by
  obtain ⟨n, rfl⟩ : ∃ n, N = n + 1 := ⟨N - 1, by omega⟩
  refine ⟨⟨_, lock_unlocked O hB hb hu, rfl⟩, ?_, ?_, ?_⟩
  · have hN1 : times (n + 1) (Perl_sharedsv_lock O B) w =
        .ret ((SAVEDESTRUCTOR_X O B (w.setSsv B
          { b with mutex := some O, locks := 1, owner := some O })).setSsv B
          { b with mutex := some O, locks := 1 + n, owner := some O }) := by
      rw [times, lock_unlocked O hB hb hu]
      simp only [Res.ret_bind]
      rw [times_lock_owner O B hB n _ { b with mutex := some O, locks := 1, owner := some O }
        (by simp [SAVEDESTRUCTOR_X]) rfl]
    exact ⟨_, hN1, rfl⟩
  · intro v c hc ho
    exact ⟨_, lock_owner hB hc ho, rfl⟩
  · intro v v1 c o hc hi h
    by_cases ho : c.owner = some o
    · right
      rw [lock_owner hB hc ho] at h
      cases h
      refine ⟨?_, rfl⟩
      rcases hi with ⟨_, h2, _⟩ | ⟨t, hpos, _, _⟩
      · rw [h2] at ho
        cases ho
      · omega
    · left
      have hun : Unlocked c := by
        rcases hi with hun | ⟨t, _, h2, h3⟩
        · exact hun
        · exfalso
          rw [lock_held_other hB hc ho h3] at h
          cases h
      rw [lock_unlocked o hB hc hun] at h
      cases h
      exact ⟨hun.1, rfl⟩

/-- The statement of C13 at the unlocked Backend 1 of `lockWorld`, owner 7, `N = 3`. -/
theorem C13_scope_release_registered_once_witness :
    (∃ w1, Perl_sharedsv_lock 7 1 lockWorld = .ret w1 ∧
      w1.savestack = (7, 1) :: lockWorld.savestack) ∧
    (∃ wN, times 3 (Perl_sharedsv_lock 7 1) lockWorld = .ret wN ∧
      wN.savestack = (7, 1) :: lockWorld.savestack) ∧
    (∀ (v : World) (c : shared_sv), v.ssvs 1 = some c → c.owner = some 7 →
      ∃ v1, Perl_sharedsv_lock 7 1 v = .ret v1 ∧ v1.savestack = v.savestack) ∧
    (∀ (v v1 : World) (c : shared_sv) (o : Interp), v.ssvs 1 = some c → LockInv c →
      Perl_sharedsv_lock o 1 v = .ret v1 →
      (c.locks = 0 ∧ v1.savestack = (o, 1) :: v.savestack) ∨
      (c.locks ≠ 0 ∧ v1.savestack = v.savestack)) :=
  C13_scope_release_registered_once lockWorld 1 (freeSsv 10) 7 3 (by decide) rfl
    ⟨rfl, rfl, rfl⟩ (by decide)

/-- C18: in every state reached from a state where the Backend at `B` is unlocked, by any
run of returning `lock`, `unlock` and `unlock_scope` calls of any callers, every caller
that is the owner of `B` holds its mutex, so the `MUTEX_UNLOCK` of an `unlock` or an
`unlock_scope` is only ever run on a mutex its caller holds: both calls return for every
caller (a release of a mutex not held would be a fault).  The releases counted along the
run never exceed the acquisitions: the acquisitions are the releases plus one when the
mutex is held. -/
theorem C18_mutex_released_only_by_holder (w0 w : World) (B : Addr) (b0 : shared_sv)
    (acq rel : Nat) (hB : B ≠ 0) (h0 : w0.ssvs B = some b0) (hu : Unlocked b0)
    (hr : LockRun B w0 w acq rel) :
    rel ≤ acq ∧ acq = rel + (if mutexOf w B = none then 0 else 1) ∧
    ∃ b, w.ssvs B = some b ∧
      ∀ o : Interp, (b.owner = some o → b.mutex = some o) ∧
        (∃ w1, Perl_sharedsv_unlock o B w = .ret w1) ∧
        (∃ w1, Perl_sharedsv_unlock_scope o B w = .ret w1) ∧
        Perl_sharedsv_unlock o B w ≠ .fault ∧
        Perl_sharedsv_unlock_scope o B w ≠ .fault := by
  have hbal := lockRun_balance hr (by simp [mutexOf, h0, hu.2.2])
  obtain ⟨b, hb, hi⟩ := lockReach_inv (lockRun_reach hr) B b0 h0 hu
  refine ⟨by omega, hbal, b, hb, fun o => ?_⟩
  obtain ⟨⟨w1, h1⟩, ⟨w2, h2⟩⟩ := unlock_returns_of_inv o hB hb hi
  refine ⟨?_, ⟨w1, h1⟩, ⟨w2, h2⟩, ?_, ?_⟩
  · intro ho
    rcases hi with ⟨_, h4, _⟩ | ⟨t, _, h4, h5⟩
    · rw [h4] at ho
      cases ho
    · rw [h5, ← h4, ho]
  · rw [h1]
    intro h
    cases h
  · rw [h2]
    intro h
    cases h

/-- The statement of C18 at the run from `lockWorld` in which interpreter 7 locks the
unlocked Backend 1 and unlocks it again: one acquisition, one release. -/
theorem C18_mutex_released_only_by_holder_witness :
    0 + released 1 lockWorld lockWorld1 + released 1 lockWorld1 lockWorld2 ≤
      0 + acquired 1 lockWorld lockWorld1 + acquired 1 lockWorld1 lockWorld2 ∧
    0 + acquired 1 lockWorld lockWorld1 + acquired 1 lockWorld1 lockWorld2 =
      0 + released 1 lockWorld lockWorld1 + released 1 lockWorld1 lockWorld2 +
        (if mutexOf lockWorld2 1 = none then 0 else 1) ∧
    ∃ b, lockWorld2.ssvs 1 = some b ∧
      ∀ o : Interp, (b.owner = some o → b.mutex = some o) ∧
        (∃ w1, Perl_sharedsv_unlock o 1 lockWorld2 = .ret w1) ∧
        (∃ w1, Perl_sharedsv_unlock_scope o 1 lockWorld2 = .ret w1) ∧
        Perl_sharedsv_unlock o 1 lockWorld2 ≠ .fault ∧
        Perl_sharedsv_unlock_scope o 1 lockWorld2 ≠ .fault :=
  C18_mutex_released_only_by_holder lockWorld lockWorld2 1 (freeSsv 10) _ _ (by decide) rfl
    ⟨rfl, rfl, rfl⟩
    (LockRun.step
      (LockRun.step LockRun.start
        (LockStep.lock 7 1 (lock_unlocked (b := freeSsv 10) 7 (by decide) rfl ⟨rfl, rfl, rfl⟩)))
      (LockStep.unlock 7 1
        (unlock_last (w := lockWorld1) (b := heldSsv 10 7 1) (by decide) rfl ⟨rfl, rfl, rfl⟩)))

/-- C16: `Perl_sharedsv_find` returns `NULL`, "not shared", for every frontend value. -/
theorem C16_find_returns_null : ∀ sv : Addr, Perl_sharedsv_find sv = 0 :=
  fun _ => rfl

/-- C17: on a Backend held by `O` at depth `d ≥ 1`, `unlock_scope(B,O)` and `d`
successive `unlock(B,O)` calls return the same state: `lock_count = 0`, no owner, the
mutex free, and everything else as before. -/
theorem C17_unlock_scope_equals_unwinding (w : World) (B : Addr) (b : shared_sv)
    (O : Interp) (d : Nat) (hB : B ≠ 0) (hb : w.ssvs B = some b) (hd : 1 ≤ d)
    (hh : HeldBy b O d) :
    ∃ w1 b1, Perl_sharedsv_unlock_scope O B w = .ret w1 ∧
      times d (Perl_sharedsv_unlock O B) w = .ret w1 ∧
      w1.ssvs B = some b1 ∧ b1.locks = 0 ∧ b1.owner = none ∧ b1.mutex = none := by
  obtain ⟨n, rfl⟩ : ∃ n, d = n + 1 := ⟨d - 1, by omega⟩
  refine ⟨_, _, unlock_scope_held hB hb hh, ?_, setSsv_ssvs_same _ _ _, rfl, rfl, rfl⟩
  exact times_unlock_all O B hB n w b hb (by simpa using hh)

/-- The statement of C17 at Backend 2 of `lockWorld`, held by interpreter 7 at depth 3. -/
theorem C17_unlock_scope_equals_unwinding_witness :
    ∃ w1 b1, Perl_sharedsv_unlock_scope 7 2 lockWorld = .ret w1 ∧
      times 3 (Perl_sharedsv_unlock 7 2) lockWorld = .ret w1 ∧
      w1.ssvs 2 = some b1 ∧ b1.locks = 0 ∧ b1.owner = none ∧ b1.mutex = none :=
  C17_unlock_scope_equals_unwinding lockWorld 2 (heldSsv 20 7 3) 7 3 (by decide) rfl
    (by decide) ⟨rfl, rfl, rfl⟩

/-! ## The thread counts, continued -/

/-- C14, as the code has it: `Perl_sharedsv_thrcnt_dec` keeps the lock of its Backend from
`SHAREDSvLOCK` to `SHAREDSvUNLOCK`, and the nested calls of the teardown run in between.
In the traced `decrement` of the container 1 of `mapWorld` with the hash
`{"a": value holding Backend 2}` by interpreter 7 (no lock held before), the third world
passed through, right after the nested call on Backend 2 took its lock, has Backend 1 held
by 7 at depth 2 and Backend 2 held by 7 at depth 1: two Backends locked at the same moment
on behalf of the caller.  The call returns. -/
theorem C14_parent_locked_during_nested_decrement :
    ∃ v w1,
      (decT 7 2 1 (mapWorld [("a", 11)])).seen[2]? = some v ∧
      v.ssvs 1 = some (heldSsv 10 7 2) ∧ v.ssvs 2 = some (heldSsv 20 7 1) ∧
      (mapWorld [("a", 11)]).ssvs 1 = some (freeSsv 10) ∧
      (mapWorld [("a", 11)]).ssvs 2 = some (freeSsv 20) ∧
      (decT 7 2 1 (mapWorld [("a", 11)])).out = .ret w1 ∧
      Perl_sharedsv_thrcnt_dec 7 2 1 (mapWorld [("a", 11)]) = .ret w1 :=
  ⟨_, _, rfl, rfl, rfl, rfl, rfl, rfl, rfl⟩

/-- C14, amended: on a Backend `B` the caller can lock, with a payload.  Every world that
`increment(B)` passes through, and every world that a `decrement(B)` which does not tear
down (payload count not 1, or a plain scalar) passes through, has every Backend other than
`B` exactly as before the call: the call takes no lock but the one of `B`, and when the
caller owned no other Backend before, `B` is the only Backend it owns at every point; both
calls return.  The worlds of any `decrement(B)` are the world after `SHAREDSvLOCK`, the
world after `SHAREDSvEDIT`, the worlds of the teardown, and the rest; on an acyclic heap,
in every world of the teardown `B` is held by the caller, two levels deeper than before
the call, and every other Backend that is not below `B` is as before the call: the nested
calls take their locks under the lock of `B`.  The traced runs have the outcomes of the
functions. -/
theorem C14_own_lock_and_nested_locks (w : World) (B : Addr) (b : shared_sv)
    (O : Interp) (s : SV) (rank : Addr → Nat) (fuel : Nat) (hB : B ≠ 0)
    (hb : w.ssvs B = some b) (hav : Avail b O) (hp : b.sv ≠ 0) (hs : w.svs b.sv = some s) :
    ((incT O B w).out = Perl_sharedsv_thrcnt_inc O B w ∧
      (∃ w1, (incT O B w).out = .ret w1) ∧
      (∀ v ∈ (incT O B w).seen, ∀ c, c ≠ B → v.ssvs c = w.ssvs c) ∧
      (OnlyHolds w O B → ∀ v ∈ (incT O B w).seen, OnlyHolds v O B)) ∧
    (NoTeardown s →
      (decT O (fuel + 1) B w).out = Perl_sharedsv_thrcnt_dec O (fuel + 1) B w ∧
      (∃ w1, (decT O (fuel + 1) B w).out = .ret w1) ∧
      (∀ v ∈ (decT O (fuel + 1) B w).seen, ∀ c, c ≠ B → v.ssvs c = w.ssvs c) ∧
      (OnlyHolds w O B → ∀ v ∈ (decT O (fuel + 1) B w).seen, OnlyHolds v O B)) ∧
    ((decT O (fuel + 1) B w).out = Perl_sharedsv_thrcnt_dec O (fuel + 1) B w ∧
      (∃ w1 tail, (decT O (fuel + 1) B w).seen =
        w1 :: entered w O B b ::
          ((teardownT (fun x v => decT O fuel x v) s (entered w O B b)).seen ++ tail)) ∧
      (Ranked w rank →
        ∀ u ∈ (teardownT (fun x v => decT O fuel x v) s (entered w O B b)).seen,
          u.ssvs B = some (inEdit b O) ∧
          ∀ c, c ≠ B → rank B ≤ rank c → u.ssvs c = w.ssvs c)) := by
  have hinc := incT_seen O B w
  refine ⟨⟨incT_out O B w, ⟨_, (incT_out O B w).trans (inc_avail hB hb hav hp hs)⟩, hinc,
    fun ho v hv => onlyHolds_of_eq (hinc v hv) ho⟩, fun hn => ?_,
    decT_out O (fuel + 1) B w, decT_seen_split fuel hB hb hav hp hs, fun hr u hu => ?_⟩
  · have hdec := decT_seen_no_teardown O fuel hb hs hn
    exact ⟨decT_out O (fuel + 1) B w,
      ⟨_, (decT_out O (fuel + 1) B w).trans (dec_no_teardown fuel hB hb hav hp hs hn)⟩,
      hdec, fun ho v hv => onlyHolds_of_eq (hdec v hv) ho⟩
  · have hshE : SameShape w (entered w O B b) := entered_sameShape O hb
    have hrE : Ranked (entered w O B b) rank := Ranked_sameShape hshE hr
    have hsE : (entered w O B b).svs b.sv = some s := by simpa [entered] using hs
    have hbE : (entered w O B b).ssvs B = some (inEdit b O) := by
      simp [entered, World.setSsv]
    have hk : Keeps (fun c => rank B ≤ rank c) (entered w O B b)
        (teardownT (fun x v => decT O fuel x v) s (entered w O B b)) :=
      teardownT_keeps _ _ _ s fun x v hv hx =>
        ⟨Keeps.mono (fun c hc =>
            Nat.lt_of_lt_of_le (hrE B x ⟨inEdit b O, s, hbE, hsE, hx⟩) hc)
          (decT_keeps O rank fuel x v (Ranked_sameShape hv hrE)),
         fun v1 hv1 => dec_sameShape O fuel x v v1 (by rw [← decT_out]; exact hv1)⟩
    refine ⟨(hk.1 u hu B (le_refl _)).trans hbE, fun c hc hrc => ?_⟩
    rw [hk.1 u hu c hrc]
    simp [entered, World.setSsv, hc]

/-- The statement of C14 at the container 1 of `mapWorld` with the hash
`{"a": value holding Backend 2}`, caller 7, who owns no Backend there (the `increment` and
the teardown of the `decrement`), and at Backend 2 of `lockWorld`, held by the caller 7 at
depth 3, whose payload 20 has count 2 (the `decrement` that does not tear down). -/
theorem C14_own_lock_and_nested_locks_witness :
    ((incT 7 1 (mapWorld [("a", 11)])).out =
        Perl_sharedsv_thrcnt_inc 7 1 (mapWorld [("a", 11)]) ∧
      (∃ w1, (incT 7 1 (mapWorld [("a", 11)])).out = .ret w1) ∧
      (∀ v ∈ (incT 7 1 (mapWorld [("a", 11)])).seen, ∀ c, c ≠ 1 →
        v.ssvs c = (mapWorld [("a", 11)]).ssvs c) ∧
      (∀ v ∈ (incT 7 1 (mapWorld [("a", 11)])).seen, OnlyHolds v 7 1)) ∧
    ((decT 7 (0 + 1) 2 lockWorld).out = Perl_sharedsv_thrcnt_dec 7 (0 + 1) 2 lockWorld ∧
      (∃ w1, (decT 7 (0 + 1) 2 lockWorld).out = .ret w1) ∧
      (∀ v ∈ (decT 7 (0 + 1) 2 lockWorld).seen, ∀ c, c ≠ 2 →
        v.ssvs c = lockWorld.ssvs c) ∧
      (∀ v ∈ (decT 7 (0 + 1) 2 lockWorld).seen, OnlyHolds v 7 2)) ∧
    ((decT 7 (1 + 1) 1 (mapWorld [("a", 11)])).out =
        Perl_sharedsv_thrcnt_dec 7 (1 + 1) 1 (mapWorld [("a", 11)]) ∧
      (∃ w1 tail, (decT 7 (1 + 1) 1 (mapWorld [("a", 11)])).seen =
        w1 :: entered (mapWorld [("a", 11)]) 7 1 (freeSsv 10) ::
          ((teardownT (fun x v => decT 7 1 x v) (hashSV 1 [("a", 11)])
            (entered (mapWorld [("a", 11)]) 7 1 (freeSsv 10))).seen ++ tail)) ∧
      (∀ u ∈ (teardownT (fun x v => decT 7 1 x v) (hashSV 1 [("a", 11)])
            (entered (mapWorld [("a", 11)]) 7 1 (freeSsv 10))).seen,
          u.ssvs 1 = some (inEdit (freeSsv 10) 7) ∧
          ∀ c, c ≠ 1 → (if (1 : Addr) = 1 then 1 else 0) ≤ (if c = 1 then 1 else 0) →
            u.ssvs c = (mapWorld [("a", 11)]).ssvs c)) := by
  have h := C14_own_lock_and_nested_locks (mapWorld [("a", 11)]) 1 (freeSsv 10) 7
    (hashSV 1 [("a", 11)]) (fun a => if a = 1 then 1 else 0) 1 (by decide) rfl
    (Or.inl ⟨rfl, rfl, rfl⟩) (by decide) rfl
  have g := C14_own_lock_and_nested_locks lockWorld 2 (heldSsv 20 7 3) 7
    (plainSV 2 svtype.SVt_PV) (fun _ => 0) 0 (by decide) rfl
    (Or.inr ⟨by decide, rfl, rfl, rfl⟩) (by decide) rfl
  have g2 := g.2.1 (Or.inl (by decide))
  have hm : OnlyHolds (mapWorld [("a", 11)]) 7 1 := by
    intro c b1 hc ho
    rcases mapWorld_ssvs_cases _ c b1 hc with ⟨rfl, rfl⟩ | ⟨rfl, rfl⟩
    · rfl
    · cases ho
  have hl : OnlyHolds lockWorld 7 2 := by
    intro c b1 hc ho
    unfold lockWorld at hc
    dsimp only at hc
    split at hc
    · cases hc
      cases ho
    · rfl
    · cases hc
  exact ⟨⟨h.1.1, h.1.2.1, h.1.2.2.1, h.1.2.2.2 hm⟩,
    ⟨g2.1, g2.2.1, g2.2.2.1, g2.2.2.2 hl⟩,
    h.2.2.1, h.2.2.2.1, h.2.2.2.2 mapWorld_ranked⟩

/-- C19: on a heap whose payload containment is acyclic (some rank on the Backends goes
down along it; arrays and hashes are finite lists), a `decrement` with more fuel than the
rank of its Backend never runs out of fuel, and when the heap is closed for the caller
(every Backend lockable, every pointer the teardown follows valid, the walk of every
array inside the array) it returns, every Backend as before.  A teardown makes at most one
call per slot: with the recursive call replaced by a probe that logs its argument, it logs
no more calls than the payload has slots.  On the cyclic heap `selfWorld`, where the
payload of Backend 1 is a reference, count 1, to Backend 1 itself, the call runs out of
fuel whatever the fuel. -/
theorem C19_recursion_ends_on_acyclic_heaps (w : World) (rank : Addr → Nat) (O : Interp)
    (B : Addr) (fuel : Nat) (hr : Ranked w rank) (hf : rank B < fuel) :
    Perl_sharedsv_thrcnt_dec O fuel B w ≠ .timeout ∧
    (Closed w O → B ≠ 0 → w.ssvs B ≠ none →
      ∃ w1, Perl_sharedsv_thrcnt_dec O fuel B w = .ret w1 ∧ w1.ssvs = w.ssvs) ∧
    (∀ (s : SV) (v v1 : World), teardown probeCall s v = .ret v1 →
      v1.log.length ≤ v.log.length + slotCount s) ∧
    Contains selfWorld 1 1 ∧
    ∀ (o : Interp) (n : Nat), Perl_sharedsv_thrcnt_dec o n 1 selfWorld = .timeout := by
  refine ⟨dec_ne_timeout O rank fuel B w hr hf,
    fun hcl hB hne => dec_returns O rank fuel B w hr hcl hf hB hne,
    teardown_probe_bound, ?_, fun o n => ?_⟩
  · exact ⟨freeSsv 10, { plainSV 1 svtype.SVt_RV with rok := true, rv := 11 }, rfl, rfl,
      by simp [targets, plainSV, slotTarget, selfWorld, slotSV]⟩
  · exact dec_self_reference o 1 (by decide) n selfWorld (freeSsv 10)
      { plainSV 1 svtype.SVt_RV with rok := true, rv := 11 } (slotSV 1) rfl
      (Or.inl ⟨rfl, rfl, rfl⟩) (by decide) rfl rfl rfl rfl (by decide) rfl (by decide) rfl

/-- The statement of C19 at the acyclic closed heap `walkWorld`, whose array walk ends at
its empty last slot: the call on the container 1 with fuel 2, above its rank 1, returns. -/
theorem C19_recursion_ends_on_acyclic_heaps_witness :
    Perl_sharedsv_thrcnt_dec 7 2 1 walkWorld ≠ .timeout ∧
    (∃ w1, Perl_sharedsv_thrcnt_dec 7 2 1 walkWorld = .ret w1 ∧
      w1.ssvs = walkWorld.ssvs) ∧
    (∀ (s : SV) (v v1 : World), teardown probeCall s v = .ret v1 →
      v1.log.length ≤ v.log.length + slotCount s) ∧
    Contains selfWorld 1 1 ∧
    ∀ (o : Interp) (n : Nat), Perl_sharedsv_thrcnt_dec o n 1 selfWorld = .timeout :=
  have h := C19_recursion_ends_on_acyclic_heaps walkWorld
    (fun a => if a = 1 then 1 else 0) 7 1 2 walkWorld_ranked (by decide)
  ⟨h.1, h.2.1 (walkWorld_closed 7) (by decide) (fun h1 => by cases h1), h.2.2⟩

end SharedSV
